import Mathlib

/-!
The program `watches`: an n-way file tree differencer

A shallow embedding of `watches.go` (the functions `intMin`, `hash` and `main`,
the latter from the point where the flags have been parsed) together with the
properties of its fingerprinter and comparator.

Conventions of the embedding.

* Go `int64` values are integers of `Int`; every `int64` operation of the source
  that can leave the range is followed by `wrap64` (wrap-around arithmetic).
* A Go string is a sequence of bytes, `GoString`: `len(s)` is the number of its
  bytes and `s[n:]` drops `n` bytes.  The constants of the source and of the
  examples are written `utf8 "..."`, the bytes of the text in UTF-8.
* A Go `error` is a value of `GoError`; `nil` is `none`.
* A run-time panic (negative `make` length, slice bound out of range, method call
  on a nil `os.FileInfo`) ends the run; it is an outcome of its own.
* The standard library is not part of the program.  The digest (`crypto/sha256`)
  is a parameter `sum256`, the file system is a parameter of type `FS`, the
  entries that `filepath.Walk` delivers for a root are a parameter `walk`, and the
  order in which the goroutines of one fan-out answer is a parameter of type
  `Scheduler`.
-/

namespace Watches

/-! ## Definitions -/

/-! ### Machine integers -/

/-- Reduction of an integer to the `int64` range, as the wrap-around arithmetic
of Go does it. -/
def wrap64 (x : Int) : Int :=
  (x + 9223372036854775808) % 18446744073709551616 - 9223372036854775808

/-- Source: `func intMin(a, b int64) int64`. -/
def intMin (a b : Int) : Int :=
  if a < b then a else b

/-- Source: `const chunk = 1 << 24` in `hash`. -/
def chunk : Int := 16777216

/-- Largest `int64`. -/
def maxInt64 : Int := 9223372036854775807

/-- Largest file size for which the loop variable of `hash` stays in the `int64`
range: `2^63 - 2^24`. -/
def maxSize : Int := 9223372036837998592

/-! ### Strings -/

/-- A Go string: a sequence of bytes. -/
abbrev GoString := List UInt8

/-- The Go string of a text: its bytes in UTF-8. -/
def utf8 (s : String) : GoString :=
  s.data.flatMap String.utf8EncodeChar

/-- The byte of the slash. -/
def slash : UInt8 := 47

/-- The byte of the dot. -/
def dot : UInt8 := 46

/-! ### Errors and files -/

/-- Go error values met by the program: `io.EOF`, an error of the operating
system (with its message), and the three errors that `hash` builds with
`fmt.Errorf` (each keeps the file name and the cause it was formatted from). -/
inductive GoError where
  | eof : GoError
  | os (msg : String) : GoError
  | cannotOpen (filename : GoString) (cause : GoError) : GoError
  | cannotStat (filename : GoString) (cause : GoError) : GoError
  | cannotRead (filename : GoString) (offset : Int) (cause : GoError) : GoError
  deriving DecidableEq, Repr

/-- The text of an error (`Error()`), as `fmt.Errorf` formats it in `hash`. -/
def GoError.message : GoError → GoString
  | .eof => utf8 "EOF"
  | .os msg => utf8 msg
  | .cannotOpen f c => utf8 "cannot open " ++ f ++ utf8 ": " ++ c.message
  | .cannotStat f c => utf8 "cannot stat " ++ f ++ utf8 ": " ++ c.message
  | .cannotRead f i c =>
    utf8 "cannot read " ++ f ++ utf8 " @ " ++ utf8 (toString i) ++ utf8 ": " ++ c.message

/-- An open file as `hash` sees it.
`statSize` is the result of `file.Stat()` (the `int64` of `info.Size()`, or the
error); `content` is the byte stream; the `k`-th call of `Read` (counted from 0)
fails with `readFail k` when that is set, and otherwise delivers at most
`maxRead k` bytes. -/
structure File where
  statSize : Except GoError Int
  content : List UInt8
  maxRead : Nat → Nat
  readFail : Nat → Option GoError

/-- The result of one `Read`: the bytes stored at the front of the buffer (their
number is the count that `Read` returns) and the error. -/
structure ReadResult where
  data : List UInt8
  err : Option GoError

/-- Model of `(*os.File).Read` for the `k`-th call, at stream offset `off`, with a
buffer of `len` bytes: a read that delivers no byte into a non-empty buffer
reports `io.EOF`. -/
def File.read (f : File) (k off len : Nat) : ReadResult :=
  match f.readFail k with
  | some e => { data := [], err := some e }
  | none =>
    let data := (f.content.drop off).take (min len (f.maxRead k))
    if data.length = 0 ∧ 0 < len then { data := [], err := some GoError.eof }
    else { data := data, err := none }

/-- The file system as the program sees it: `openFile` is `os.Open`, and `isDir`
tells whether `os.Stat` succeeds on a name and reports a directory. -/
structure FS where
  openFile : GoString → Except GoError File
  isDir : GoString → Bool

/-! ### The fingerprinter (`intMin` is above, `hash` here) -/

/-- How the read loop of `hash` ends: it runs to the end with the bytes written to
the digest and the lengths of the buffers it allocated, it returns an error, or
`make` panics on a negative length.  `fuelExhausted` is the bound of the model on
the number of iterations being hit. -/
inductive LoopExit where
  | finished (written : List UInt8) (bufs : List Int) : LoopExit
  | failed (err : GoError) : LoopExit
  | panicked : LoopExit
  | fuelExhausted : LoopExit

/-- The test `err != nil && err != io.EOF` on the error of a `Read`: the error the
loop returns on, if any. -/
def readAbort (err : Option GoError) : Option GoError :=
  match err with
  | none => none
  | some e => if e = GoError.eof then none else some e

/-- Source: the `for` loop of `hash`.  `i` is the loop variable, `k` the number of
`Read` calls made so far, `off` the offset of the file, `s` the bytes written to
the digest so far and `bufs` the lengths of the buffers made so far.  The whole
buffer is written to the digest whatever number of bytes `Read` stored in it. -/
def hashLoop (f : File) (filename : GoString) (size : Int) :
    Nat → Int → Nat → Nat → List UInt8 → List Int → LoopExit
  | 0, _, _, _, _, _ => LoopExit.fuelExhausted
  | fuel + 1, i, k, off, s, bufs =>
    if i < size then
      let blockSize := intMin chunk (wrap64 (size - i))
      if blockSize < 0 then LoopExit.panicked
      else
        let r := f.read k off blockSize.toNat
        match readAbort r.err with
        | some e => LoopExit.failed (GoError.cannotRead filename i e)
        | none =>
          let buf := r.data ++ List.replicate (blockSize.toNat - r.data.length) 0
          hashLoop f filename size fuel (wrap64 (i + chunk)) (k + 1)
            (off + r.data.length) (s ++ buf) (bufs ++ [blockSize])
    else LoopExit.finished s bufs

/-- Number of loop iterations allowed for a file of the given size: one more than
the loop can make for any `int64` size (see `hash_fuel_suffices`). -/
def loopFuel (size : Int) : Nat :=
  size.toNat / 16777216 + 2

/-- One lowercase hexadecimal digit. -/
def hexDigit (n : Nat) : UInt8 :=
  (utf8 "0123456789abcdef").getD n 48

/-- Source: `fmt.Sprintf("%x", bytes)`: two lowercase hexadecimal digits a byte. -/
def hexString (bs : List UInt8) : GoString :=
  bs.flatMap fun b => [hexDigit (b.toNat / 16), hexDigit (b.toNat % 16)]

/-- What a call of `hash` does: it returns its pair `(string, error)`, or the
program panics. -/
inductive HashOutcome where
  | returned (digest : GoString) (err : Option GoError) : HashOutcome
  | panicked : HashOutcome
  | fuelExhausted : HashOutcome
  deriving DecidableEq, Repr

/-- Source: `func hash(filename string) (string, error)`. -/
def hash (sum256 : List UInt8 → List UInt8) (fs : FS) (filename : GoString) : HashOutcome :=
  match fs.openFile filename with
  | .error e => HashOutcome.returned [] (some (GoError.cannotOpen filename e))
  | .ok file =>
    match file.statSize with
    | .error e => HashOutcome.returned [] (some (GoError.cannotStat filename e))
    | .ok size =>
      match hashLoop file filename size (loopFuel size) 0 0 0 [] [] with
      | .finished s _ => HashOutcome.returned (hexString (sum256 s)) none
      | .failed e => HashOutcome.returned [] (some e)
      | .panicked => HashOutcome.panicked
      | .fuelExhausted => HashOutcome.fuelExhausted

/-! ### Paths (`path.Clean`, `path.Join`, and the paths built by `filepath.Walk`) -/

/-- Split a path at its slashes. -/
def splitSlash : GoString → List GoString
  | [] => [[]]
  | c :: cs =>
    match splitSlash cs with
    | [] => [[c]]
    | w :: ws => if c = slash then [] :: w :: ws else (c :: w) :: ws

/-- The elements of a cleaned path, in reverse order: empty elements and `.` are
dropped, `..` removes the element before it, and a `..` that has nothing to remove
is kept in a relative path and dropped in a rooted one. -/
def cleanElems (rooted : Bool) : List GoString → List GoString → List GoString
  | [], acc => acc
  | e :: es, acc =>
    if e = [] ∨ e = [dot] then cleanElems rooted es acc
    else if e = [dot, dot] then
      match acc with
      | [] => if rooted then cleanElems rooted es [] else cleanElems rooted es [e]
      | top :: rest =>
        if top = [dot, dot] then cleanElems rooted es (e :: top :: rest)
        else cleanElems rooted es rest
    else cleanElems rooted es (e :: acc)

/-- Model of the Go function `path.Clean` (which `filepath.Clean` is on Unix). -/
def pathClean (p : GoString) : GoString :=
  let rooted := p.head? = some slash
  let elems := (cleanElems rooted (splitSlash p) []).reverse
  let body := List.intercalate [slash] elems
  let out := if rooted then slash :: body else body
  if out = [] then [dot] else out

/-- Model of the Go function `path.Join` (and of `filepath.Join` on Unix) for two elements:
empty elements are ignored, the rest is joined by a slash and cleaned. -/
def pathJoin (a b : GoString) : GoString :=
  if a = [] ∧ b = [] then []
  else if a = [] then pathClean b
  else if b = [] then pathClean a
  else pathClean (a ++ [slash] ++ b)

/-- The path under which `filepath.Walk` delivers the entry reached from the root
`dir` through the directory entries `names`: the root itself is delivered as it
was given, and every level below is `filepath.Join(path, name)`. -/
def walkedPath (dir : GoString) (names : List GoString) : GoString :=
  names.foldl pathJoin dir

/-! ### The comparator (`main`) -/

/-- The kinds of file an `os.FileInfo` can describe. -/
inductive FileKind where
  | regular | directory | symlink | special
  deriving DecidableEq, Repr

/-- Model of `os.FileInfo`, as far as `main` uses it. -/
structure FileInfo where
  kind : FileKind
  deriving DecidableEq, Repr

/-- Source: `info.IsDir()`. -/
def FileInfo.isDir (info : FileInfo) : Bool :=
  decide (info.kind = FileKind.directory)

/-- One call that `filepath.Walk` makes to its callback: the arguments
`walkedPath`, `info` (which is `nil` when the metadata could not be read) and
`err`. -/
structure WalkEntry where
  path : GoString
  info : Option FileInfo
  err : Option GoError

/-- Source: `type message struct { Base string; Hash string; Err error }`. -/
structure Message where
  base : GoString
  hash : GoString
  err : Option GoError
  deriving DecidableEq, Repr

/-- The order in which the goroutines of one fan-out deliver their messages on
`out`: any rearrangement of the messages, possibly a different one for every
path. -/
structure Scheduler where
  arrive : GoString → List Message → List Message
  perm : ∀ stub msgs, (arrive stub msgs).Perm msgs

/-- Source: the fan-out of `main` (`for _, base := range searchPaths`): every base
is received by exactly one goroutine, which hashes `path.Join(b, stub)` and builds
its message.  The result is `none` when one of the calls of `hash` does not
return. -/
def dispatch (sum256 : List UInt8 → List UInt8) (fs : FS) (stub : GoString) :
    List GoString → Option (List Message)
  | [] => some []
  | b :: bs =>
    match hash sum256 fs (pathJoin b stub) with
    | HashOutcome.returned h e =>
      match dispatch sum256 fs stub bs with
      | some ms => some ({ base := b, hash := h, err := e } :: ms)
      | none => none
    | _ => none

/-- A line `Unable to hash <file>: <cause>` of the log. -/
structure Warning where
  file : GoString
  cause : Option GoError
  deriving DecidableEq, Repr

/-- Source: `hashes[m.Hash] = append(hashes[m.Hash], m.Base)` on a map kept as a
list of keys with their values. -/
def groupAdd (h b : GoString) : List (GoString × List GoString) → List (GoString × List GoString)
  | [] => [(h, [b])]
  | (k, v) :: rest =>
    if k = h then (k, v ++ [b]) :: rest else (k, v) :: groupAdd h b rest

/-- Source: the fan-in loop of `main` (`for i := 0; i < len(searchPaths); i++`) on
the messages in the order they arrive.  `err` is the variable `err` in scope at
the `log.Printf`, which is the parameter of the walk callback. -/
def collect (stub : GoString) (err : Option GoError) :
    List Message → List Warning → List (GoString × List GoString) →
    List Warning × List (GoString × List GoString)
  | [], ws, hashes => (ws, hashes)
  | m :: ms, ws, hashes =>
    if m.err ≠ none then
      collect stub err ms (ws ++ [{ file := pathJoin m.base stub, cause := err }]) hashes
    else
      collect stub err ms ws (groupAdd m.hash m.base hashes)

/-- What the comparator did for one relative path: the files it handed to the
fingerprinter, the warnings it logged, the grouping it built and whether it
logged the `Mismatch` line. -/
structure PathReport where
  stub : GoString
  hashed : List GoString
  warnings : List Warning
  hashes : List (GoString × List GoString)
  mismatch : Bool
  deriving DecidableEq, Repr

/-- Source: the body of the walk callback from `type message` to the `Mismatch`
line, for one relative path. -/
def processPath (sum256 : List UInt8 → List UInt8) (fs : FS) (sched : Scheduler)
    (searchPaths : List GoString) (stub : GoString) (err : Option GoError) :
    Option PathReport :=
  match dispatch sum256 fs stub searchPaths with
  | none => none
  | some msgs =>
    let r := collect stub err (sched.arrive stub msgs) [] []
    some { stub := stub,
           hashed := searchPaths.map fun b => pathJoin b stub,
           warnings := r.1,
           hashes := r.2,
           mismatch := decide (1 < r.2.length) }

/-- The state of a run: the keys of the map `checked` and what was done so far,
one report for each evaluated path, in order. -/
structure RunState where
  checked : List GoString
  log : List PathReport
  deriving DecidableEq, Repr

/-- Source: `walkedPath[len(dir):]`; `none` is the panic of a slice bound out of
range. -/
def stubOf (dir walked : GoString) : Option GoString :=
  if walked.length < dir.length then none
  else some (walked.drop dir.length)

/-- Source: the callback that `main` passes to `filepath.Walk(dir, ...)`.  The
result is `none` when the program panics. -/
def walkFn (sum256 : List UInt8 → List UInt8) (fs : FS) (sched : Scheduler)
    (searchPaths : List GoString) (dir : GoString) (st : RunState) (e : WalkEntry) :
    Option RunState :=
  match e.info with
  | none => none
  | some info =>
    if info.isDir then some st
    else
      match stubOf dir e.path with
      | none => none
      | some stub =>
        if stub ∈ st.checked then some st
        else
          match processPath sum256 fs sched searchPaths stub e.err with
          | none => none
          | some report =>
            some { checked := stub :: st.checked, log := st.log ++ [report] }

/-- The callback applied to the entries of one walk, in order. -/
def walkEntries (sum256 : List UInt8 → List UInt8) (fs : FS) (sched : Scheduler)
    (searchPaths : List GoString) (dir : GoString) : RunState → List WalkEntry → Option RunState
  | st, [] => some st
  | st, e :: es =>
    match walkFn sum256 fs sched searchPaths dir st e with
    | none => none
    | some st' => walkEntries sum256 fs sched searchPaths dir st' es

/-- Source: `for _, dir := range searchPaths { filepath.Walk(dir, ...) }`, over the
roots that remain to be walked. -/
def walkRoots (sum256 : List UInt8 → List UInt8) (fs : FS) (sched : Scheduler)
    (walk : GoString → List WalkEntry) (searchPaths : List GoString) :
    RunState → List GoString → Option RunState
  | st, [] => some st
  | st, dir :: dirs =>
    match walkEntries sum256 fs sched searchPaths dir st (walk dir) with
    | none => none
    | some st' => walkRoots sum256 fs sched walk searchPaths st' dirs

/-- How a run of the program ends: `log.Fatal` ends it before any walk, it panics,
or it runs to its end. -/
inductive RunOutcome where
  | fatal (msg : GoString) : RunOutcome
  | panicked : RunOutcome
  | finished (st : RunState) : RunOutcome
  deriving DecidableEq, Repr

/-- Source: `func main()`, for the search paths that the flags give.  Both fatal
exits go through `log.Fatal`, which prints its arguments one after the other (the
`%v` of the second message is not a format). -/
def main (sum256 : List UInt8 → List UInt8) (fs : FS) (sched : Scheduler)
    (walk : GoString → List WalkEntry) (searchPaths : List GoString) : RunOutcome :=
  if searchPaths.length = 0 then RunOutcome.fatal (utf8 "No search paths specified.")
  else
    match searchPaths.find? (fun dir => !fs.isDir dir) with
    | some dir => RunOutcome.fatal (utf8 "%v does not exist or is not a directory." ++ dir)
    | none =>
      match walkRoots sum256 fs sched walk searchPaths { checked := [], log := [] }
          searchPaths with
      | none => RunOutcome.panicked
      | some st => RunOutcome.finished st

/-! ### Concrete inputs -/

/-- A regular file with the given bytes whose size is reported exactly and whose
reads fill the buffer. -/
def plainFile (content : List UInt8) : File :=
  { statSize := .ok content.length, content := content,
    maxRead := fun _ => 16777216, readFail := fun _ => none }

/-- A toy digest used to run the model on concrete inputs. -/
def toySum (bs : List UInt8) : List UInt8 := bs

/-- Messages arrive in the order of the roots. -/
def inOrder : Scheduler :=
  { arrive := fun _ msgs => msgs, perm := fun _ _ => List.Perm.refl _ }

/-- Messages arrive in the reverse order of the roots. -/
def reversed : Scheduler :=
  { arrive := fun _ msgs => msgs.reverse, perm := fun _ _ => List.reverse_perm _ }

/-- A file system given by its directories and the files it holds; every other
name fails to open, and a name is a directory when its cleaned form is one. -/
def fsOf (dirs : List GoString) (files : List (GoString × File)) : FS :=
  { openFile := fun name =>
      match files.lookup name with
      | some f => .ok f
      | none => .error (GoError.os "no such file or directory"),
    isDir := fun name => decide (pathClean name ∈ dirs) }

/-- A file system in which every name opens the given file. -/
def oneFile (f : File) : FS :=
  { openFile := fun _ => .ok f, isDir := fun _ => false }

/-! ### Notions used in the statements -/

/-- The buffer lengths of `m` successive iterations starting at iteration `k`. -/
def blockSizes (size : Int) (k m : Nat) : List Int :=
  (List.range m).map fun j => intMin chunk (size - ((k + j : Nat) : Int) * chunk)

/-- The bytes of a file followed by zero bytes up to its reported size. -/
def padded (content : List UInt8) (size : Int) : List UInt8 :=
  content ++ List.replicate (size.toNat - content.length) 0

/-- The number of iterations of the read loop for a file of the given size:
the size divided by the chunk size, rounded up. -/
def iterations (size : Int) : Nat :=
  ((size + chunk - 1) / chunk).toNat

/-- The loop has an iteration `k` for this size (counted from 0), and the read of
that iteration fails with the error `cause`, which is not `io.EOF`. -/
def ReadFailsAt (file : File) (size : Int) (k : Nat) (cause : GoError) : Prop :=
  (k : Int) * chunk < size ∧ readAbort (file.readFail k) = some cause

/-- No read of the loop fails with an error other than `io.EOF`. -/
def ReadsSucceed (file : File) (size : Int) : Prop :=
  ∀ j : Nat, (j : Int) * chunk < size → readAbort (file.readFail j) = none

/-- The file cannot be opened, with the given cause. -/
def OpenFails (fs : FS) (filename : GoString) (cause : GoError) : Prop :=
  fs.openFile filename = .error cause

/-- The file opens and its size cannot be read, with the given cause. -/
def StatFails (fs : FS) (filename : GoString) (cause : GoError) : Prop :=
  ∃ file, fs.openFile filename = .ok file ∧ file.statSize = .error cause

/-- The file opens, its size is read, and the read of iteration `k` of the loop
fails with the given cause, which is not `io.EOF`. -/
def ReadFails (fs : FS) (filename : GoString) (k : Nat) (cause : GoError) : Prop :=
  ∃ file size, fs.openFile filename = .ok file ∧ file.statSize = .ok size ∧
    ReadFailsAt file size k cause

/-- A file of three bytes whose every read fails with an input/output error. -/
def brokenFile : File :=
  { plainFile [1, 2, 3] with readFail := fun _ => some (GoError.os "input/output error") }

/-- A file that reports the size `2^25` and whose every read fails with an
input/output error. -/
def brokenBigFile : File :=
  { plainFile [] with
    statSize := .ok 33554432,
    readFail := fun _ => some (GoError.os "input/output error") }

/-- A file that reports the size `2^63 - 1` and whose stream is empty: its reads
report `io.EOF`, which `hash` does not take for an error. -/
def hugeFile : File :=
  { plainFile [] with statSize := .ok 9223372036854775807 }

/-- The grouping maps the fingerprint `h` to a set of roots that holds `b`. -/
def InGroup (hashes : List (GoString × List GoString)) (h b : GoString) : Prop :=
  ∃ g, (h, g) ∈ hashes ∧ b ∈ g

/-- Every group of the grouping holds a root. -/
def GroupsInhabited (hashes : List (GoString × List GoString)) : Prop :=
  ∀ h g, (h, g) ∈ hashes → g ≠ []

/-- The warning that the fan-in logs for a message with an error. -/
def warningOf (stub : GoString) (err : Option GoError) (m : Message) : Warning :=
  { file := pathJoin m.base stub, cause := err }

/-- The fingerprinter succeeds on the file of the root `b` with the value `h`. -/
def Fingerprints (sum256 : List UInt8 → List UInt8) (fs : FS) (stub b h : GoString) : Prop :=
  hash sum256 fs (pathJoin b stub) = HashOutcome.returned h none

/-- Roots `a` and `b` hold `sub/file.txt` with different bytes. -/
def fsDiffer : FS :=
  fsOf [utf8 "a", utf8 "b"]
    [((utf8 "a/sub/file.txt"), plainFile [1, 2, 3]), ((utf8 "b/sub/file.txt"), plainFile [1, 2, 4])]

/-- Roots `a` and `b` hold `sub/file.txt` with the same bytes; root `c` lacks it. -/
def fsAgree : FS :=
  fsOf [utf8 "a", utf8 "b", utf8 "c"]
    [((utf8 "a/sub/file.txt"), plainFile [1, 2, 3]), ((utf8 "b/sub/file.txt"), plainFile [1, 2, 3])]

/-- The report of `/sub/file.txt` over the roots `a`, `b` of `fsDiffer`. -/
def reportDiffer : PathReport :=
  { stub := utf8 "/sub/file.txt",
    hashed := [utf8 "a/sub/file.txt", utf8 "b/sub/file.txt"],
    warnings := [],
    hashes := [((utf8 "010203"), [utf8 "a"]), ((utf8 "010204"), [utf8 "b"])],
    mismatch := true }

/-- The report of `/sub/file.txt` over the roots `a`, `b`, `c` of `fsAgree`, the
messages arriving in reverse order. -/
def reportAgree : PathReport :=
  { stub := utf8 "/sub/file.txt",
    hashed := [utf8 "a/sub/file.txt", utf8 "b/sub/file.txt", utf8 "c/sub/file.txt"],
    warnings := [{ file := utf8 "c/sub/file.txt", cause := none }],
    hashes := [((utf8 "010203"), [utf8 "b", utf8 "a"])],
    mismatch := false }

/-- The relative path that an entry yields in the walk of `dir`: none for a
directory. -/
def entryStub (dir : GoString) (e : WalkEntry) : Option GoString :=
  match e.info with
  | none => none
  | some info => if info.isDir then none else stubOf dir e.path

/-- The relative paths discovered by the walks of the given roots, in the order of
discovery, with repetitions. -/
def discovered (walk : GoString → List WalkEntry) (roots : List GoString) : List GoString :=
  roots.flatMap fun dir => (walk dir).filterMap (entryStub dir)

/-- A list without the repetitions of its elements: every element stays at its
first occurrence. -/
def firstOccurrences : List GoString → List GoString
  | [] => []
  | x :: xs => x :: (firstOccurrences xs).filter (fun y => decide (y ≠ x))

/-- The paths of a list of discoveries that are evaluated when the paths `seen` have
been evaluated before. -/
def newStubs : List GoString → List GoString → List GoString
  | _, [] => []
  | seen, x :: xs => if x ∈ seen then newStubs seen xs else x :: newStubs (x :: seen) xs

/-- The invariant of a run: the keys of `checked` are the paths of the reports, and
every report is the evaluation of its path over all the roots. -/
def RunInv (sum256 : List UInt8 → List UInt8) (fs : FS) (sched : Scheduler)
    (roots : List GoString) (st : RunState) : Prop :=
  st.checked = (st.log.map fun r => r.stub).reverse ∧
    ∀ r ∈ st.log, ∃ err, processPath sum256 fs sched roots r.stub err = some r

/-- The entries that `filepath.Walk` delivers for a root that holds the directory
`sub` with the regular file `file.txt` in it. -/
def walkTree (dir : GoString) : List WalkEntry :=
  [{ path := walkedPath dir [], info := some { kind := FileKind.directory }, err := none },
   { path := walkedPath dir [utf8 "sub"], info := some { kind := FileKind.directory }, err := none },
   { path := walkedPath dir [utf8 "sub", utf8 "file.txt"], info := some { kind := FileKind.regular },
     err := none }]

/-- The entries that `filepath.Walk` delivers for a root that holds the regular file
`f`. -/
def walkFlat (dir : GoString) : List WalkEntry :=
  [{ path := walkedPath dir [], info := some { kind := FileKind.directory }, err := none },
   { path := walkedPath dir [utf8 "f"], info := some { kind := FileKind.regular }, err := none }]

/-! ## Theorems -/

/-- The model of the paths on some inputs; the strip of the root counts bytes. -/
theorem path_model_checks :
    pathClean (utf8 "./a//b/../c/") = utf8 "a/c" ∧
      pathClean (utf8 "/../a") = utf8 "/a" ∧
      pathClean (utf8 "") = utf8 "." ∧
      pathClean (utf8 "../../x") = utf8 "../../x" ∧
      pathClean (utf8 "/") = utf8 "/" ∧
      pathClean (utf8 "a/") = utf8 "a" ∧
      pathJoin (utf8 "a/") (utf8 "f") = utf8 "a/f" ∧
      pathJoin (utf8 "b") (utf8 "/f") = utf8 "b/f" ∧
      pathJoin (utf8 "") (utf8 "") = utf8 "" ∧
      walkedPath (utf8 "a") [utf8 "sub", utf8 "file.txt"] = utf8 "a/sub/file.txt" ∧
      stubOf (utf8 "é/../a") (walkedPath (utf8 "é/../a") [utf8 "sub", utf8 "file.txt"]) =
        some (utf8 "ile.txt") ∧
      stubOf (utf8 "./abcd/") (walkedPath (utf8 "./abcd/") [utf8 "é"]) = some [] ∧
      stubOf (utf8 "./a/") (walkedPath (utf8 "./a/") [utf8 "f"]) = none := by
  decide

theorem wrap64_of_inRange (x : Int) (h1 : -9223372036854775808 ≤ x)
    (h2 : x ≤ 9223372036854775807) : wrap64 x = x := by
  unfold wrap64
  omega

theorem readAbort_read (f : File) (k off len : Nat) :
    readAbort (f.read k off len).err = readAbort (f.readFail k) := by
  unfold File.read
  cases h : f.readFail k with
  | some e => simp
  | none =>
    simp only
    split <;> simp [readAbort]

/-- One iteration of the loop that neither overflows nor sees a read error. -/
theorem hashLoop_step (f : File) (filename : GoString) (size : Int) (fuel : Nat) (i : Int)
    (k off : Nat) (s : List UInt8) (bufs : List Int)
    (h0 : 0 ≤ i) (hi : i < size) (hs : size ≤ 9223372036854775807)
    (hr : readAbort (f.readFail k) = none) :
    hashLoop f filename size (fuel + 1) i k off s bufs =
      hashLoop f filename size fuel (wrap64 (i + chunk)) (k + 1)
        (off + (f.read k off (intMin chunk (size - i)).toNat).data.length)
        (s ++ ((f.read k off (intMin chunk (size - i)).toNat).data ++
          List.replicate ((intMin chunk (size - i)).toNat -
            (f.read k off (intMin chunk (size - i)).toNat).data.length) 0))
        (bufs ++ [intMin chunk (size - i)]) := by
  have hw : wrap64 (size - i) = size - i := wrap64_of_inRange _ (by omega) (by omega)
  have hb : ¬ intMin chunk (size - i) < 0 := by
    unfold intMin chunk
    split <;> omega
  rw [hashLoop]
  simp only [hi, if_true, hw, hb, if_false, readAbort_read, hr]

/-- An iteration whose read fails with an error other than `io.EOF`. -/
theorem hashLoop_abort (f : File) (filename : GoString) (size : Int) (fuel : Nat) (i : Int)
    (k off : Nat) (s : List UInt8) (bufs : List Int) (e : GoError)
    (h0 : 0 ≤ i) (hi : i < size) (hs : size ≤ 9223372036854775807)
    (hr : readAbort (f.readFail k) = some e) :
    hashLoop f filename size (fuel + 1) i k off s bufs =
      LoopExit.failed (GoError.cannotRead filename i e) := by
  have hw : wrap64 (size - i) = size - i := wrap64_of_inRange _ (by omega) (by omega)
  have hb : ¬ intMin chunk (size - i) < 0 := by
    unfold intMin chunk
    split <;> omega
  rw [hashLoop]
  simp only [hi, if_true, hw, hb, if_false, readAbort_read, hr]

/-- The loop is over once the loop variable has reached the size. -/
theorem hashLoop_done (f : File) (filename : GoString) (size : Int) (fuel : Nat) (i : Int)
    (k off : Nat) (s : List UInt8) (bufs : List Int) (hi : size ≤ i) :
    hashLoop f filename size (fuel + 1) i k off s bufs = LoopExit.finished s bufs := by
  have : ¬ i < size := by omega
  rw [hashLoop]
  simp only [this, if_false]

theorem blockSizes_succ (size : Int) (k m : Nat) :
    blockSizes size k (m + 1) =
      intMin chunk (size - (k : Int) * chunk) :: blockSizes size (k + 1) m := by
  unfold blockSizes
  rw [List.range_succ_eq_map, List.map_cons, List.map_map, Nat.add_zero]
  refine congrArg _ (List.map_congr_left ?_)
  intro j _
  have e : k + (j + 1) = k + 1 + j := by omega
  simp only [Function.comp, Nat.succ_eq_add_one, e]

/-- Without a read error and without overflow, the loop runs to its end, and the
buffers it makes have the lengths `blockSizes`. -/
theorem hashLoop_finishes (f : File) (filename : GoString) (size : Int)
    (hs : size ≤ maxSize)
    (hr : ∀ j : Nat, (j : Int) * chunk < size → readAbort (f.readFail j) = none) :
    ∀ (m k fuel off : Nat) (s : List UInt8) (bufs : List Int),
      m ≤ fuel → size - (k : Int) * chunk ≤ (m : Int) * chunk →
      (∀ j : Nat, j < m → ((k + j : Nat) : Int) * chunk < size) →
      ∃ s', hashLoop f filename size (fuel + 1) ((k : Int) * chunk) k off s bufs =
        LoopExit.finished s' (bufs ++ blockSizes size k m) := by
  intro m
  induction m with
  | zero =>
    intro k fuel off s bufs _ hle _
    refine ⟨s, ?_⟩
    rw [hashLoop_done _ _ _ _ _ _ _ _ _ (by simpa using hle)]
    simp [blockSizes]
  | succ m ih =>
    intro k fuel off s bufs hfuel hle hlt
    obtain ⟨fuel', rfl⟩ : ∃ fuel', fuel = fuel' + 1 := ⟨fuel - 1, by omega⟩
    have hk : (k : Int) * chunk < size := by simpa using hlt 0 (by omega)
    have hk0 : (0 : Int) ≤ (k : Int) * chunk := by unfold chunk; omega
    have hsz : size ≤ 9223372036854775807 := by unfold maxSize at hs; omega
    rw [hashLoop_step f filename size (fuel' + 1) _ k off s bufs hk0 hk hsz (hr k hk)]
    have hw : wrap64 ((k : Int) * chunk + chunk) = ((k + 1 : Nat) : Int) * chunk := by
      rw [wrap64_of_inRange]
      · push_cast; ring
      · unfold chunk; omega
      · unfold chunk maxSize at *; omega
    rw [hw]
    obtain ⟨s', hs'⟩ := ih (k + 1) fuel' _ _ _ (by omega)
      (by push_cast; unfold chunk at *; push_cast at hle; omega)
      (by
        intro j hj
        have := hlt (j + 1) (by omega)
        have e : k + 1 + j = k + (j + 1) := by omega
        rw [e]; exact this)
    refine ⟨s', ?_⟩
    rw [hs', blockSizes_succ, List.append_assoc]
    rfl

/-- The loop returns the error of the first read that fails with an error other
than `io.EOF`, with the value of the loop variable at that read. -/
theorem hashLoop_fails (f : File) (filename : GoString) (size : Int)
    (hs : size ≤ 9223372036854775807) (k0 : Nat) (e : GoError)
    (hk0 : (k0 : Int) * chunk < size)
    (hbefore : ∀ j : Nat, j < k0 → readAbort (f.readFail j) = none)
    (hat : readAbort (f.readFail k0) = some e) :
    ∀ (d k fuel off : Nat) (s : List UInt8) (bufs : List Int),
      k + d = k0 → d ≤ fuel →
      hashLoop f filename size (fuel + 1) ((k : Int) * chunk) k off s bufs =
        LoopExit.failed (GoError.cannotRead filename ((k0 : Int) * chunk) e) := by
  intro d
  induction d with
  | zero =>
    intro k fuel off s bufs hk _
    have hk' : k = k0 := by omega
    subst hk'
    exact hashLoop_abort f filename size fuel _ k off s bufs e
      (by unfold chunk; omega) hk0 hs hat
  | succ d ih =>
    intro k fuel off s bufs hk hfuel
    obtain ⟨fuel', rfl⟩ : ∃ fuel', fuel = fuel' + 1 := ⟨fuel - 1, by omega⟩
    have hlt : (k : Int) * chunk < size := by
      have : (k : Int) < (k0 : Int) := by omega
      unfold chunk at *; omega
    rw [hashLoop_step f filename size (fuel' + 1) _ k off s bufs (by unfold chunk; omega) hlt hs
      (hbefore k (by omega))]
    have hw : wrap64 ((k : Int) * chunk + chunk) = ((k + 1 : Nat) : Int) * chunk := by
      have : (k : Int) + 1 ≤ (k0 : Int) := by omega
      rw [wrap64_of_inRange]
      · push_cast; ring
      · unfold chunk; omega
      · unfold chunk at *; omega
    rw [hw]
    exact ih (k + 1) fuel' _ _ _ (by omega) (by omega)

/-- For a size above `maxSize` the loop variable overflows after the last regular
iteration; the next iteration asks `make` for a negative length. -/
theorem hashLoop_overflows (f : File) (filename : GoString) (size : Int)
    (hs1 : maxSize < size) (hs2 : size ≤ 9223372036854775807)
    (hr : ∀ j : Nat, (j : Int) * chunk < size → readAbort (f.readFail j) = none) :
    ∀ (d k fuel off : Nat) (s : List UInt8) (bufs : List Int),
      k + d + 1 = 549755813888 → d + 1 ≤ fuel →
      hashLoop f filename size (fuel + 1) ((k : Int) * chunk) k off s bufs =
        LoopExit.panicked := by
  intro d
  induction d with
  | zero =>
    intro k fuel off s bufs hk hfuel
    obtain ⟨fuel', rfl⟩ : ∃ fuel', fuel = fuel' + 1 := ⟨fuel - 1, by omega⟩
    have hkv : (k : Int) = 549755813887 := by omega
    have hlt : (k : Int) * chunk < size := by
      unfold chunk maxSize at *; omega
    rw [hashLoop_step f filename size (fuel' + 1) _ k off s bufs (by unfold chunk; omega) hlt hs2
      (hr k hlt)]
    have hw : wrap64 ((k : Int) * chunk + chunk) = -9223372036854775808 := by
      unfold wrap64 chunk; omega
    have hw2 : wrap64 (size - -9223372036854775808) = size - 9223372036854775808 := by
      unfold wrap64 maxSize at *; omega
    have hneg : intMin chunk (size - 9223372036854775808) < 0 := by
      unfold intMin chunk; split <;> omega
    have hlt2 : (-9223372036854775808 : Int) < size := by unfold maxSize at hs1; omega
    rw [hw, hashLoop]
    simp only [hlt2, if_true, hw2, hneg]
  | succ d ih =>
    intro k fuel off s bufs hk hfuel
    obtain ⟨fuel', rfl⟩ : ∃ fuel', fuel = fuel' + 1 := ⟨fuel - 1, by omega⟩
    have hkv : (k : Int) + 2 ≤ 549755813888 := by omega
    have hlt : (k : Int) * chunk < size := by
      unfold chunk maxSize at *; omega
    rw [hashLoop_step f filename size (fuel' + 1) _ k off s bufs (by unfold chunk; omega) hlt hs2
      (hr k hlt)]
    have hw : wrap64 ((k : Int) * chunk + chunk) = ((k + 1 : Nat) : Int) * chunk := by
      rw [wrap64_of_inRange]
      · push_cast; ring
      · unfold chunk; omega
      · unfold chunk at *; omega
    rw [hw]
    exact ih (k + 1) fuel' _ _ _ (by omega) (by omega)

theorem pad_block (c : List UInt8) (n kc b : Nat) (hb : kc + b ≤ n) :
    (c.drop (min kc c.length)).take b ++
      List.replicate (b - ((c.drop (min kc c.length)).take b).length) 0 =
    ((c ++ List.replicate (n - c.length) 0).drop kc).take b := by
  rcases Nat.le_total kc c.length with h | h
  · rw [Nat.min_eq_left h, List.drop_append_of_le_length h, List.take_append_eq_append_take,
      List.take_replicate, List.length_take, List.length_drop]
    congr 2
    omega
  · rw [Nat.min_eq_right h, List.drop_length, List.drop_append_eq_append_drop,
      List.drop_of_length_le h]
    simp only [List.take_nil, List.length_nil, List.nil_append, List.drop_replicate,
      List.take_replicate, Nat.sub_zero]
    congr 1
    omega

/-- What a read delivers on a file whose reads never fail and fill the buffer. -/
theorem read_data_full (f : File) (k off len : Nat) (hfail : f.readFail k = none)
    (hfull : len ≤ f.maxRead k) :
    (f.read k off len).data = (f.content.drop off).take len := by
  unfold File.read
  rw [hfail]
  simp only [Nat.min_eq_left hfull]
  split
  · rename_i h
    exact (List.eq_nil_of_length_eq_zero h.1).symm
  · rfl

/-- On a file whose reads never fail and fill the buffer, and whose stream is not
longer than its reported size, the loop writes to the digest the bytes of the file
followed by zero bytes up to the reported size. -/
theorem hashLoop_written (f : File) (filename : GoString) (size : Int)
    (hs : size ≤ maxSize) (hlen : (f.content.length : Int) ≤ size)
    (hfail : ∀ j, f.readFail j = none) (hfull : ∀ j, 16777216 ≤ f.maxRead j) :
    ∀ (m k fuel off : Nat) (s : List UInt8) (bufs : List Int),
      m ≤ fuel → size - (k : Int) * chunk ≤ (m : Int) * chunk →
      off = min (k * 16777216) f.content.length →
      ∃ bufs', hashLoop f filename size (fuel + 1) ((k : Int) * chunk) k off s bufs =
        LoopExit.finished (s ++ (padded f.content size).drop (k * 16777216)) bufs' := by
  have hplen : (padded f.content size).length = size.toNat := by
    unfold padded
    rw [List.length_append, List.length_replicate]
    omega
  intro m
  induction m with
  | zero =>
    intro k fuel off s bufs _ hle _
    refine ⟨bufs, ?_⟩
    rw [hashLoop_done _ _ _ _ _ _ _ _ _ (by simpa using hle)]
    rw [List.drop_of_length_le, List.append_nil]
    rw [hplen]
    unfold chunk at hle
    omega
  | succ m ih =>
    intro k fuel off s bufs hfuel hle hoff
    obtain ⟨fuel', rfl⟩ : ∃ fuel', fuel = fuel' + 1 := ⟨fuel - 1, by omega⟩
    by_cases hk : (k : Int) * chunk < size
    · have hsz : size ≤ 9223372036854775807 := by unfold maxSize at hs; omega
      rw [hashLoop_step f filename size (fuel' + 1) _ k off s bufs (by unfold chunk; omega) hk hsz
        (by rw [hfail]; rfl)]
      have hw : wrap64 ((k : Int) * chunk + chunk) = ((k + 1 : Nat) : Int) * chunk := by
        rw [wrap64_of_inRange]
        · push_cast; ring
        · unfold chunk; omega
        · unfold chunk maxSize at *; omega
      have hbn : (intMin chunk (size - (k : Int) * chunk)).toNat =
          min 16777216 (size.toNat - k * 16777216) := by
        unfold intMin chunk at *
        split <;> omega
      have hbl : (intMin chunk (size - (k : Int) * chunk)).toNat ≤ f.maxRead k := by
        have := hfull k
        omega
      rw [hw, read_data_full f k off _ (hfail k) hbl, hbn, hoff]
      obtain ⟨bufs', hb'⟩ := ih (k + 1) fuel'
        (min (k * 16777216) f.content.length +
          (List.take (min 16777216 (size.toNat - k * 16777216))
            (List.drop (min (k * 16777216) f.content.length) f.content)).length)
        (s ++ (List.take (min 16777216 (size.toNat - k * 16777216))
            (List.drop (min (k * 16777216) f.content.length) f.content) ++
          List.replicate (min 16777216 (size.toNat - k * 16777216) -
            (List.take (min 16777216 (size.toNat - k * 16777216))
              (List.drop (min (k * 16777216) f.content.length) f.content)).length) 0))
        (bufs ++ [intMin chunk (size - (k : Int) * chunk)])
        (by omega)
        (by push_cast; unfold chunk at *; push_cast at hle; omega)
        (by rw [List.length_take, List.length_drop]; omega)
      refine ⟨bufs', ?_⟩
      have hkn : k * 16777216 + min 16777216 (size.toNat - k * 16777216) ≤ size.toNat := by
        unfold chunk at hk; omega
      have hd : List.drop ((k + 1) * 16777216) (padded f.content size) =
          List.drop (min 16777216 (size.toNat - k * 16777216))
            (List.drop (k * 16777216) (padded f.content size)) := by
        rw [List.drop_drop]
        by_cases hc : 16777216 ≤ size.toNat - k * 16777216
        · have e : (k + 1) * 16777216 =
              k * 16777216 + min 16777216 (size.toNat - k * 16777216) := by omega
          rw [e]
        · rw [List.drop_of_length_le (by rw [hplen]; omega),
            List.drop_of_length_le (by rw [hplen]; omega)]
      have key := pad_block f.content size.toNat (k * 16777216) _ hkn
      rw [hb', List.append_assoc, key, hd]
      unfold padded
      rw [List.take_append_drop]
    · refine ⟨bufs, ?_⟩
      rw [hashLoop_done _ _ _ _ _ _ _ _ _ (by omega)]
      rw [List.drop_of_length_le, List.append_nil]
      rw [hplen]
      unfold chunk at hk
      omega

theorem loopFuel_eq (size : Int) : loopFuel size = size.toNat / 16777216 + 1 + 1 := rfl

theorem loop_of_first_failure (f : File) (filename : GoString) (size : Int)
    (hs : size ≤ 9223372036854775807) (k : Nat) (e : GoError)
    (hat : ReadFailsAt f size k e)
    (hbefore : ∀ j : Nat, j < k → readAbort (f.readFail j) = none) :
    hashLoop f filename size (loopFuel size) 0 0 0 [] [] =
      LoopExit.failed (GoError.cannotRead filename ((k : Int) * chunk) e) := by
  have h := hashLoop_fails f filename size hs k e hat.1 hbefore hat.2 k 0
    (size.toNat / 16777216 + 1) 0 [] [] (by omega)
    (by have := hat.1; unfold chunk at this; omega)
  rw [Nat.cast_zero, zero_mul] at h
  rw [loopFuel_eq]
  exact h

theorem loop_of_success (f : File) (filename : GoString) (size : Int)
    (hs : size ≤ maxSize) (hr : ReadsSucceed f size) :
    ∃ s, hashLoop f filename size (loopFuel size) 0 0 0 [] [] =
      LoopExit.finished s (blockSizes size 0 (iterations size)) := by
  have h := hashLoop_finishes f filename size hs hr (iterations size) 0
    (size.toNat / 16777216 + 1) 0 [] []
    (by unfold iterations chunk; omega)
    (by unfold iterations chunk; omega)
    (by
      intro j hj
      unfold iterations chunk at *
      omega)
  rw [Nat.cast_zero, zero_mul, List.nil_append] at h
  rw [loopFuel_eq]
  exact h

theorem loop_of_overflow (f : File) (filename : GoString) (size : Int)
    (hs1 : maxSize < size) (hs2 : size ≤ 9223372036854775807) (hr : ReadsSucceed f size) :
    hashLoop f filename size (loopFuel size) 0 0 0 [] [] = LoopExit.panicked := by
  have h := hashLoop_overflows f filename size hs1 hs2 hr 549755813887 0
    (size.toNat / 16777216 + 1) 0 [] [] (by omega)
    (by unfold maxSize at hs1; omega)
  rw [Nat.cast_zero, zero_mul] at h
  rw [loopFuel_eq]
  exact h

/-- Either some read of the loop fails, and then there is a first one, or none
does. -/
theorem first_failure_or_success (f : File) (size : Int) :
    (∃ k e, ReadFailsAt f size k e ∧ ∀ j : Nat, j < k → readAbort (f.readFail j) = none) ∨
      ReadsSucceed f size := by
  by_cases h : ∃ k : Nat, (k : Int) * chunk < size ∧ readAbort (f.readFail k) ≠ none
  · left
    classical
    refine ⟨Nat.find h, ?_⟩
    obtain ⟨hlt, hne⟩ := Nat.find_spec h
    obtain ⟨e, he⟩ := Option.ne_none_iff_exists'.mp hne
    refine ⟨e, ⟨hlt, he⟩, ?_⟩
    intro j hj
    have hmin := Nat.find_min h hj
    by_contra hc
    apply hmin
    refine ⟨?_, hc⟩
    have : (j : Int) < (Nat.find h : Int) := by omega
    unfold chunk at *
    omega
  · right
    intro j hj
    by_contra hc
    exact h ⟨j, hj, hc⟩

theorem hash_open_error (sum256 : List UInt8 → List UInt8) (fs : FS) (filename : GoString)
    (e : GoError) (ho : fs.openFile filename = .error e) :
    hash sum256 fs filename =
      HashOutcome.returned [] (some (GoError.cannotOpen filename e)) := by
  unfold hash
  rw [ho]

theorem hash_stat_error (sum256 : List UInt8 → List UInt8) (fs : FS) (filename : GoString)
    (file : File) (e : GoError) (ho : fs.openFile filename = .ok file)
    (hst : file.statSize = .error e) :
    hash sum256 fs filename =
      HashOutcome.returned [] (some (GoError.cannotStat filename e)) := by
  unfold hash
  rw [ho]
  simp only [hst]

theorem hash_loop (sum256 : List UInt8 → List UInt8) (fs : FS) (filename : GoString)
    (file : File) (size : Int) (ho : fs.openFile filename = .ok file)
    (hst : file.statSize = .ok size) :
    hash sum256 fs filename =
      match hashLoop file filename size (loopFuel size) 0 0 0 [] [] with
      | .finished s _ => HashOutcome.returned (hexString (sum256 s)) none
      | .failed e => HashOutcome.returned [] (some e)
      | .panicked => HashOutcome.panicked
      | .fuelExhausted => HashOutcome.fuelExhausted := by
  unfold hash
  rw [ho]
  simp only [hst]

/-- The model never runs out of iterations on a file whose size is an `int64`: the
bound `loopFuel` is never what ends the loop. -/
theorem hash_fuel_suffices (sum256 : List UInt8 → List UInt8) (fs : FS) (filename : GoString)
    (hwf : ∀ file size, fs.openFile filename = .ok file → file.statSize = .ok size →
      size ≤ 9223372036854775807) :
    hash sum256 fs filename ≠ HashOutcome.fuelExhausted := by
  cases ho : fs.openFile filename with
  | error e => rw [hash_open_error sum256 fs filename e ho]; simp
  | ok file =>
    cases hst : file.statSize with
    | error e => rw [hash_stat_error sum256 fs filename file e ho hst]; simp
    | ok size =>
      have hs := hwf file size ho hst
      rw [hash_loop sum256 fs filename file size ho hst]
      rcases first_failure_or_success file size with ⟨k, e, hat, hb⟩ | hr
      · rw [loop_of_first_failure file filename size hs k e hat hb]
        simp
      · by_cases hm : size ≤ maxSize
        · obtain ⟨s, h⟩ := loop_of_success file filename size hm hr
          rw [h]
          simp
        · rw [loop_of_overflow file filename size (by omega) hs hr]
          simp

theorem blockSizes_length (size : Int) (k m : Nat) : (blockSizes size k m).length = m := by
  unfold blockSizes
  rw [List.length_map, List.length_range]

theorem blockSizes_getElem? (size : Int) (k m j : Nat) (b : Int)
    (h : (blockSizes size k m)[j]? = some b) :
    j < m ∧ b = intMin chunk (size - ((k + j : Nat) : Int) * chunk) := by
  unfold blockSizes at h
  rw [List.getElem?_map] at h
  cases hj : (List.range m)[j]? with
  | none => rw [hj] at h; simp at h
  | some x =>
    rw [hj] at h
    have hlt : j < (List.range m).length := (List.getElem?_eq_some_iff.mp hj).1
    have hx : x = j := by
      have := (List.getElem?_eq_some_iff.mp hj).2
      rw [List.getElem_range] at this
      exact this.symm
    rw [List.length_range] at hlt
    subst hx
    simp only [Option.map_some', Option.some.injEq] at h
    exact ⟨hlt, h.symm⟩

theorem blockSizes_sum (size : Int) :
    ∀ (m k : Nat), size - (k : Int) * chunk ≤ (m : Int) * chunk →
      (∀ j : Nat, j < m → ((k + j : Nat) : Int) * chunk < size) →
      (blockSizes size k m).sum = max (size - (k : Int) * chunk) 0 := by
  intro m
  induction m with
  | zero =>
    intro k hle _
    have : size - (k : Int) * chunk ≤ 0 := by simpa using hle
    simp [blockSizes, this]
  | succ m ih =>
    intro k hle hlt
    have hk : (k : Int) * chunk < size := by simpa using hlt 0 (by omega)
    have hrest := ih (k + 1)
      (by push_cast; unfold chunk at *; push_cast at hle; omega)
      (by
        intro j hj
        have := hlt (j + 1) (by omega)
        have e : k + 1 + j = k + (j + 1) := by omega
        rw [e]; exact this)
    rw [blockSizes_succ, List.sum_cons, hrest]
    have hnext : m ≠ 0 → ((k + 1 : Nat) : Int) * chunk < size := by
      intro hm
      have := hlt 1 (by omega)
      exact this
    unfold intMin chunk at *
    push_cast at *
    by_cases hm : m = 0
    · subst hm
      split <;> omega
    · have := hnext hm
      split <;> omega

theorem hexDigit_mem (n : Nat) (h : n < 16) : hexDigit n ∈ utf8 "0123456789abcdef" := by
  interval_cases n <;> decide

theorem hexString_length (bs : List UInt8) : (hexString bs).length = 2 * bs.length := by
  unfold hexString
  induction bs with
  | nil => rfl
  | cons b bs ih =>
    simp only [List.flatMap_cons, List.length_append, List.length_cons,
      List.length_nil] at *
    omega

theorem hexString_lowercase (bs : List UInt8) (c : UInt8) (h : c ∈ hexString bs) :
    c ∈ utf8 "0123456789abcdef" := by
  unfold hexString at h
  simp only [List.mem_flatMap, List.mem_cons, List.mem_singleton, List.not_mem_nil,
    or_false] at h
  obtain ⟨b, _, hc | hc⟩ := h
  · rw [hc]
    exact hexDigit_mem _ (by have := b.toNat_lt; omega)
  · rw [hc]
    exact hexDigit_mem _ (by omega)

/-- On a file whose reads never fail and fill the buffer, and whose stream is not
longer than its reported size, `hash` returns the digest of the bytes of the file
followed by zero bytes up to the reported size. -/
theorem hash_of_padded (sum256 : List UInt8 → List UInt8) (fs : FS) (filename : GoString)
    (file : File) (size : Int) (ho : fs.openFile filename = .ok file)
    (hst : file.statSize = .ok size) (hs : size ≤ maxSize)
    (hlen : (file.content.length : Int) ≤ size)
    (hfail : ∀ j, file.readFail j = none) (hfull : ∀ j, 16777216 ≤ file.maxRead j) :
    hash sum256 fs filename =
      HashOutcome.returned (hexString (sum256 (padded file.content size))) none := by
  obtain ⟨bufs, h⟩ := hashLoop_written file filename size hs hlen hfail hfull
    (size.toNat / 16777216 + 1) 0 (size.toNat / 16777216 + 1) 0 [] []
    (Nat.le_refl _) (by unfold chunk; omega) (by simp)
  rw [Nat.cast_zero, zero_mul, Nat.zero_mul, List.drop_zero, List.nil_append] at h
  rw [hash_loop sum256 fs filename file size ho hst, loopFuel_eq, h]

/-- C4 (amended).  For every file whose reported size equals the length of its byte
content, is at most `2^63 - 2^24`, and whose reads never fail and fill the buffer,
`hash` returns, without error, the lowercase hexadecimal rendering (two digits a
byte) of the digest of the whole content, whatever the length of the content is
relative to the chunk size. -/
theorem hash_of_complete_file (sum256 : List UInt8 → List UInt8) (fs : FS)
    (filename : GoString) (file : File)
    (ho : fs.openFile filename = .ok file)
    (hst : file.statSize = .ok (file.content.length : Int))
    (hs : (file.content.length : Int) ≤ maxSize)
    (hfail : ∀ j, file.readFail j = none) (hfull : ∀ j, 16777216 ≤ file.maxRead j) :
    hash sum256 fs filename =
        HashOutcome.returned (hexString (sum256 file.content)) none ∧
      (hexString (sum256 file.content)).length = 2 * (sum256 file.content).length ∧
      ∀ c ∈ hexString (sum256 file.content), c ∈ utf8 "0123456789abcdef" := by
  refine ⟨?_, hexString_length _, fun c hc => hexString_lowercase _ c hc⟩
  have h := hash_of_padded sum256 fs filename file _ ho hst hs (Int.le_refl _) hfail hfull
  have hp : padded file.content (file.content.length : Int) = file.content := by
    unfold padded
    simp
  rw [hp] at h
  exact h

/-- Witness of `hash_of_complete_file`: a file of three bytes. -/
theorem hash_of_complete_file_witness :
    hash toySum (oneFile (plainFile [1, 2, 255])) (utf8 "f") =
        HashOutcome.returned (hexString (toySum [1, 2, 255])) none ∧
      (hexString (toySum [1, 2, 255])).length = 2 * (toySum [1, 2, 255]).length ∧
      ∀ c ∈ hexString (toySum [1, 2, 255]), c ∈ utf8 "0123456789abcdef" :=
  hash_of_complete_file toySum (oneFile (plainFile [1, 2, 255])) (utf8 "f")
    (plainFile [1, 2, 255]) rfl rfl (by decide) (fun _ => rfl) (fun _ => Nat.le_refl _)

/-- C4 (counterexample).  A file of `2^63 - 1` bytes, whose size is reported exactly
and whose reads never fail and fill the buffer: `hash` does not return a digest,
the program panics. -/
theorem hash_of_complete_file_counterexample :
    (plainFile (List.replicate 9223372036854775807 0)).statSize =
        .ok ((plainFile (List.replicate 9223372036854775807 0)).content.length : Int) ∧
      hash toySum (oneFile (plainFile (List.replicate 9223372036854775807 0))) (utf8 "f") =
        HashOutcome.panicked := by
  refine ⟨rfl, ?_⟩
  have hst : (plainFile (List.replicate 9223372036854775807 0)).statSize =
      .ok (9223372036854775807 : Int) := by
    unfold plainFile
    simp only [List.length_replicate]
    rfl
  rw [hash_loop toySum _ (utf8 "f") _ _ rfl hst,
    loop_of_overflow (plainFile (List.replicate 9223372036854775807 0)) (utf8 "f")
      9223372036854775807 (by unfold maxSize; omega) (by omega) (fun _ _ => rfl)]

/-- C7 (the code at the failing input).  A file that reports four bytes and whose
stream ends after the two bytes `1, 2`: `hash` returns without error, but the
digest is that of `1, 2, 0, 0`, the two bytes of the stream followed by the part
of the buffer that `Read` did not fill; it is the value returned for the complete
file `1, 2, 0, 0`. -/
theorem hash_short_stream_feeds_buffer (sum256 : List UInt8 → List UInt8) :
    hash sum256 (oneFile { plainFile [1, 2] with statSize := .ok 4 }) (utf8 "f") =
        HashOutcome.returned (hexString (sum256 [1, 2, 0, 0])) none ∧
      hash sum256 (oneFile { plainFile [1, 2] with statSize := .ok 4 }) (utf8 "f") =
        hash sum256 (oneFile (plainFile [1, 2, 0, 0])) (utf8 "f") :=
  ⟨rfl, rfl⟩

/-- C8 (amended).  For a file whose reported size is an `int64`: `hash` returns an
error if and only if the open fails, the stat fails, or some read of the loop
fails with an error other than `io.EOF`; the digest returned with an error is
empty and the error holds the file name and the cause (for a read, the first one
that fails); and when none of the three happens and the reported size is at most
`2^63 - 2^24`, `hash` returns a digest and no error. -/
theorem hash_error_iff (sum256 : List UInt8 → List UInt8) (fs : FS) (filename : GoString)
    (hwf : ∀ file size, fs.openFile filename = .ok file → file.statSize = .ok size →
      size ≤ maxInt64) :
    ((∃ d e, hash sum256 fs filename = HashOutcome.returned d (some e)) ↔
      ((∃ c, OpenFails fs filename c) ∨ (∃ c, StatFails fs filename c) ∨
        ∃ k c, ReadFails fs filename k c)) ∧
    (∀ d e, hash sum256 fs filename = HashOutcome.returned d (some e) → d = []) ∧
    (∀ c, OpenFails fs filename c →
      hash sum256 fs filename = HashOutcome.returned [] (some (GoError.cannotOpen filename c))) ∧
    (∀ c, StatFails fs filename c →
      hash sum256 fs filename = HashOutcome.returned [] (some (GoError.cannotStat filename c))) ∧
    (∀ file size k c, fs.openFile filename = .ok file → file.statSize = .ok size →
      ReadFailsAt file size k c → (∀ j : Nat, j < k → readAbort (file.readFail j) = none) →
      hash sum256 fs filename =
        HashOutcome.returned [] (some (GoError.cannotRead filename ((k : Int) * chunk) c))) ∧
    (¬ ((∃ c, OpenFails fs filename c) ∨ (∃ c, StatFails fs filename c) ∨
        ∃ k c, ReadFails fs filename k c) →
      (∀ file size, fs.openFile filename = .ok file → file.statSize = .ok size →
        size ≤ maxSize) →
      ∃ written, hash sum256 fs filename =
        HashOutcome.returned (hexString (sum256 written)) none) := by
  have hread : ∀ file size k c, fs.openFile filename = .ok file → file.statSize = .ok size →
      ReadFailsAt file size k c → (∀ j : Nat, j < k → readAbort (file.readFail j) = none) →
      hash sum256 fs filename =
        HashOutcome.returned [] (some (GoError.cannotRead filename ((k : Int) * chunk) c)) := by
    intro file size k c ho hst hat hb
    rw [hash_loop sum256 fs filename file size ho hst,
      loop_of_first_failure file filename size (hwf file size ho hst) k c hat hb]
  have hcases : (∃ e, hash sum256 fs filename = HashOutcome.returned [] (some e) ∧
        ((∃ c, OpenFails fs filename c) ∨ (∃ c, StatFails fs filename c) ∨
          ∃ k c, ReadFails fs filename k c)) ∨
      ((¬ ((∃ c, OpenFails fs filename c) ∨ (∃ c, StatFails fs filename c) ∨
          ∃ k c, ReadFails fs filename k c)) ∧
        ((∃ written, hash sum256 fs filename =
            HashOutcome.returned (hexString (sum256 written)) none) ∨
          (hash sum256 fs filename = HashOutcome.panicked ∧
            ∃ file size, fs.openFile filename = .ok file ∧ file.statSize = .ok size ∧
              maxSize < size))) := by
    cases ho : fs.openFile filename with
    | error e =>
      exact Or.inl ⟨_, hash_open_error sum256 fs filename e ho, Or.inl ⟨e, ho⟩⟩
    | ok file =>
      cases hst : file.statSize with
      | error e =>
        exact Or.inl ⟨_, hash_stat_error sum256 fs filename file e ho hst,
          Or.inr (Or.inl ⟨e, file, ho, hst⟩)⟩
      | ok size =>
        rcases first_failure_or_success file size with ⟨k, e, hat, hb⟩ | hr
        · exact Or.inl ⟨_, hread file size k e ho hst hat hb,
            Or.inr (Or.inr ⟨k, e, file, size, ho, hst, hat⟩)⟩
        · right
          refine ⟨?_, ?_⟩
          · rintro (⟨c, hc⟩ | ⟨c, f', hf', hc⟩ | ⟨k, c, f', sz, hf', hsz, hat⟩)
            · unfold OpenFails at hc
              rw [ho] at hc
              cases hc
            · rw [ho] at hf'
              cases hf'
              rw [hst] at hc
              cases hc
            · rw [ho] at hf'
              cases hf'
              rw [hst] at hsz
              cases hsz
              have := hr k hat.1
              rw [hat.2] at this
              cases this
          · by_cases hm : size ≤ maxSize
            · obtain ⟨s, h⟩ := loop_of_success file filename size hm hr
              left
              refine ⟨s, ?_⟩
              rw [hash_loop sum256 fs filename file size ho hst, h]
            · right
              refine ⟨?_, file, size, rfl, hst, by omega⟩
              rw [hash_loop sum256 fs filename file size ho hst,
                loop_of_overflow file filename size (by omega) (hwf file size ho hst) hr]
  refine ⟨?_, ?_, ?_, ?_, hread, ?_⟩
  · constructor
    · rintro ⟨d, e, h⟩
      rcases hcases with ⟨_, _, hc⟩ | ⟨_, ⟨w, hw⟩ | ⟨hp, _⟩⟩
      · exact hc
      · rw [hw] at h
        cases h
      · rw [hp] at h
        cases h
    · intro hc
      rcases hcases with ⟨e, he, _⟩ | ⟨hn, _⟩
      · exact ⟨_, e, he⟩
      · exact absurd hc hn
  · intro d e h
    rcases hcases with ⟨e', he, _⟩ | ⟨_, ⟨w, hw⟩ | ⟨hp, _⟩⟩
    · rw [he] at h
      cases h
      rfl
    · rw [hw] at h
      cases h
    · rw [hp] at h
      cases h
  · intro c hc
    exact hash_open_error sum256 fs filename c hc
  · rintro c ⟨file, ho, hst⟩
    exact hash_stat_error sum256 fs filename file c ho hst
  · intro hn hsmall
    rcases hcases with ⟨_, _, hc⟩ | ⟨_, hw | ⟨_, file, size, ho, hst, hbig⟩⟩
    · exact absurd hc hn
    · exact hw
    · have := hsmall file size ho hst
      omega

/-- Witness of `hash_error_iff`: the first read of a file fails. -/
theorem hash_error_iff_witness :
    hash toySum (oneFile brokenFile) (utf8 "f") =
      HashOutcome.returned []
        (some (GoError.cannotRead (utf8 "f") (((0 : Nat) : Int) * chunk)
          (GoError.os "input/output error"))) :=
  (hash_error_iff toySum (oneFile brokenFile) (utf8 "f")
    (by
      intro file size ho hst
      simp only [oneFile, Except.ok.injEq] at ho
      subst ho
      simp only [brokenFile, plainFile, Except.ok.injEq] at hst
      subst hst
      decide)).2.2.2.2.1 brokenFile 3 0 (GoError.os "input/output error") rfl rfl
      ⟨by decide, rfl⟩ (fun j hj => absurd hj (Nat.not_lt_zero j))

/-- C8 (counterexample).  Opening `hugeFile` succeeds, its size is read, and no read
fails with an error other than `io.EOF`; yet `hash` returns neither a digest nor
an error: the program panics. -/
theorem hash_error_iff_counterexample :
    (oneFile hugeFile).openFile (utf8 "f") = .ok hugeFile ∧
      hugeFile.statSize = .ok 9223372036854775807 ∧
      (∀ k, readAbort (hugeFile.readFail k) = none) ∧
      hash toySum (oneFile hugeFile) (utf8 "f") = HashOutcome.panicked := by
  refine ⟨rfl, rfl, fun _ => rfl, ?_⟩
  rw [hash_loop toySum _ (utf8 "f") hugeFile 9223372036854775807 rfl rfl,
    loop_of_overflow hugeFile (utf8 "f") 9223372036854775807 (by unfold maxSize; omega) (by omega)
      (fun _ _ => rfl)]

/-- C10 (amended).  For every reported size `n` with `0 ≤ n ≤ 2^63 - 2^24`, when no
read fails, the read loop ends after exactly `⌈n / 2^24⌉` iterations; the buffer
of the iteration with loop variable `i = j * 2^24` has length
`intMin(2^24, n - i)`, which is at least 1 and at most `2^24`; every buffer but the
last has length `2^24`; and the lengths add up to `n`. -/
theorem readLoop_chunks (f : File) (filename : GoString) (n : Int)
    (h0 : 0 ≤ n) (hmax : n ≤ maxSize) (hr : ReadsSucceed f n) :
    chunk = 2 ^ 24 ∧
    ∃ s bufs, hashLoop f filename n (loopFuel n) 0 0 0 [] [] = LoopExit.finished s bufs ∧
      (bufs.length : Int) = (n + chunk - 1) / chunk ∧
      (∀ (j : Nat) (b : Int), bufs[j]? = some b →
        b = intMin chunk (n - (j : Int) * chunk) ∧ 1 ≤ b ∧ b ≤ chunk) ∧
      (∀ (j : Nat) (b : Int), j + 1 < bufs.length → bufs[j]? = some b → b = chunk) ∧
      bufs.sum = n := by
  refine ⟨by unfold chunk; norm_num, ?_⟩
  obtain ⟨s, h⟩ := loop_of_success f filename n hmax hr
  refine ⟨s, _, h, ?_, ?_, ?_, ?_⟩
  · rw [blockSizes_length]
    unfold iterations chunk
    omega
  · intro j b hb
    obtain ⟨hj, rfl⟩ := blockSizes_getElem? n 0 (iterations n) j b hb
    rw [Nat.zero_add]
    refine ⟨rfl, ?_, ?_⟩
    · unfold iterations intMin chunk at *
      split <;> omega
    · unfold intMin chunk
      split <;> omega
  · intro j b hj hb
    rw [blockSizes_length] at hj
    obtain ⟨_, rfl⟩ := blockSizes_getElem? n 0 (iterations n) j b hb
    rw [Nat.zero_add]
    unfold iterations intMin chunk at *
    split <;> omega
  · rw [blockSizes_sum n (iterations n) 0 (by unfold iterations chunk; omega)
      (by
        intro j hj
        unfold iterations chunk at *
        omega)]
    rw [Nat.cast_zero, zero_mul, sub_zero]
    exact max_eq_left h0

/-- Witness of `readLoop_chunks`: a file of three bytes. -/
theorem readLoop_chunks_witness :
    chunk = 2 ^ 24 ∧
    ∃ s bufs, hashLoop (plainFile [1, 2, 3]) (utf8 "f") 3 (loopFuel 3) 0 0 0 [] [] =
        LoopExit.finished s bufs ∧
      (bufs.length : Int) = (3 + chunk - 1) / chunk ∧
      (∀ (j : Nat) (b : Int), bufs[j]? = some b →
        b = intMin chunk (3 - (j : Int) * chunk) ∧ 1 ≤ b ∧ b ≤ chunk) ∧
      (∀ (j : Nat) (b : Int), j + 1 < bufs.length → bufs[j]? = some b → b = chunk) ∧
      bufs.sum = 3 :=
  readLoop_chunks (plainFile [1, 2, 3]) (utf8 "f") 3 (by decide) (by decide) (fun _ _ => rfl)

/-- C10 (counterexample).  For the reported size `n = 2^63 - 1`, a non-negative
`int64`, the loop does not end after `⌈n / 2^24⌉ = 2^39` iterations: after them
the loop variable has wrapped around to `-2^63`, one more iteration starts, its
buffer length `intMin(2^24, n - i)` is negative and `make` panics.  And for the
size `2^25`, when the first read fails, the loop is left in its first iteration,
not after two. -/
theorem readLoop_chunks_counterexample :
    (0 : Int) ≤ 9223372036854775807 ∧ (9223372036854775807 : Int) ≤ maxInt64 ∧
      ReadsSucceed hugeFile 9223372036854775807 ∧
      hashLoop hugeFile (utf8 "f") 9223372036854775807 (loopFuel 9223372036854775807) 0 0 0 [] [] =
        LoopExit.panicked ∧
      intMin chunk (wrap64 (9223372036854775807 - wrap64 (549755813887 * chunk + chunk))) = -1 ∧
      hashLoop brokenBigFile (utf8 "f") 33554432 (loopFuel 33554432) 0 0 0 [] [] =
        LoopExit.failed (GoError.cannotRead (utf8 "f") 0 (GoError.os "input/output error")) :=
  ⟨by decide, by decide, fun _ _ => rfl,
    loop_of_overflow hugeFile (utf8 "f") 9223372036854775807 (by unfold maxSize; omega) (by omega)
      (fun _ _ => rfl),
    by decide,
    hashLoop_abort brokenBigFile (utf8 "f") 33554432 3 0 0 0 [] [] (GoError.os "input/output error")
      (by decide) (by decide) (by decide) rfl⟩

theorem inGroup_groupAdd (h b h' b' : GoString) (hashes : List (GoString × List GoString)) :
    InGroup (groupAdd h b hashes) h' b' ↔ InGroup hashes h' b' ∨ (h' = h ∧ b' = b) := by
  unfold InGroup
  induction hashes with
  | nil =>
    simp only [groupAdd, List.mem_singleton, Prod.mk.injEq, List.not_mem_nil, false_and,
      exists_false, false_or]
    constructor
    · rintro ⟨g, ⟨rfl, rfl⟩, hb⟩
      exact ⟨rfl, by simpa using hb⟩
    · rintro ⟨rfl, rfl⟩
      exact ⟨[b'], ⟨rfl, rfl⟩, by simp⟩
  | cons kv rest ih =>
    obtain ⟨k, v⟩ := kv
    unfold groupAdd
    by_cases hk : k = h
    · subst hk
      simp only [if_true, List.mem_cons, Prod.mk.injEq]
      constructor
      · rintro ⟨g, (⟨rfl, rfl⟩ | hg), hb⟩
        · rcases List.mem_append.mp hb with hb | hb
          · exact Or.inl ⟨v, Or.inl ⟨rfl, rfl⟩, hb⟩
          · exact Or.inr ⟨rfl, by simpa using hb⟩
        · exact Or.inl ⟨g, Or.inr hg, hb⟩
      · rintro (⟨g, (⟨rfl, rfl⟩ | hg), hb⟩ | ⟨rfl, rfl⟩)
        · exact ⟨g ++ [b], Or.inl ⟨rfl, rfl⟩, List.mem_append_left _ hb⟩
        · exact ⟨g, Or.inr hg, hb⟩
        · exact ⟨v ++ [b'], Or.inl ⟨rfl, rfl⟩, by simp⟩
    · simp only [hk, if_false, List.mem_cons, Prod.mk.injEq]
      constructor
      · rintro ⟨g, (⟨rfl, rfl⟩ | hg), hb⟩
        · exact Or.inl ⟨g, Or.inl ⟨rfl, rfl⟩, hb⟩
        · rcases ih.mp ⟨g, hg, hb⟩ with ⟨g', hg', hb'⟩ | hr
          · exact Or.inl ⟨g', Or.inr hg', hb'⟩
          · exact Or.inr hr
      · rintro (⟨g, (⟨rfl, rfl⟩ | hg), hb⟩ | hr)
        · exact ⟨g, Or.inl ⟨rfl, rfl⟩, hb⟩
        · obtain ⟨g', hg', hb'⟩ := ih.mpr (Or.inl ⟨g, hg, hb⟩)
          exact ⟨g', Or.inr hg', hb'⟩
        · obtain ⟨g', hg', hb'⟩ := ih.mpr (Or.inr hr)
          exact ⟨g', Or.inr hg', hb'⟩

theorem keys_groupAdd (h b h' : GoString) (hashes : List (GoString × List GoString)) :
    h' ∈ (groupAdd h b hashes).map Prod.fst ↔ h' ∈ hashes.map Prod.fst ∨ h' = h := by
  induction hashes with
  | nil => simp [groupAdd]
  | cons kv rest ih =>
    obtain ⟨k, v⟩ := kv
    unfold groupAdd
    by_cases hk : k = h
    · subst hk
      simp only [if_true, List.map_cons, List.mem_cons]
      tauto
    · simp only [hk, if_false, List.map_cons, List.mem_cons, ih]
      tauto

theorem nodup_keys_groupAdd (h b : GoString) (hashes : List (GoString × List GoString))
    (hn : (hashes.map Prod.fst).Nodup) : ((groupAdd h b hashes).map Prod.fst).Nodup := by
  induction hashes with
  | nil => simp [groupAdd]
  | cons kv rest ih =>
    obtain ⟨k, v⟩ := kv
    unfold groupAdd
    rw [List.map_cons, List.nodup_cons] at hn
    by_cases hk : k = h
    · subst hk
      simp only [if_true, List.map_cons, List.nodup_cons]
      exact hn
    · simp only [hk, if_false, List.map_cons, List.nodup_cons]
      refine ⟨?_, ih hn.2⟩
      intro hmem
      rcases (keys_groupAdd h b k rest).mp hmem with hmem | hmem
      · exact hn.1 hmem
      · exact hk hmem

theorem groupsInhabited_groupAdd (h b : GoString) (hashes : List (GoString × List GoString))
    (hi : GroupsInhabited hashes) : GroupsInhabited (groupAdd h b hashes) := by
  induction hashes with
  | nil =>
    intro h' g hg
    simp only [groupAdd, List.mem_singleton, Prod.mk.injEq] at hg
    rw [hg.2]
    simp
  | cons kv rest ih =>
    obtain ⟨k, v⟩ := kv
    have hrest : GroupsInhabited rest := fun h' g hg => hi h' g (List.mem_cons_of_mem _ hg)
    intro h' g hg
    unfold groupAdd at hg
    by_cases hk : k = h
    · simp only [hk, if_true, List.mem_cons, Prod.mk.injEq] at hg
      rcases hg with ⟨_, rfl⟩ | hg
      · simp
      · exact hrest h' g hg
    · simp only [hk, if_false, List.mem_cons, Prod.mk.injEq] at hg
      rcases hg with ⟨rfl, rfl⟩ | hg
      · exact hi _ _ (List.mem_cons_self _ _)
      · exact ih hrest h' g hg

theorem dispatch_mem (sum256 : List UInt8 → List UInt8) (fs : FS) (stub : GoString) :
    ∀ (roots : List GoString) (msgs : List Message),
      dispatch sum256 fs stub roots = some msgs →
      ∀ m, m ∈ msgs ↔
        (m.base ∈ roots ∧
          hash sum256 fs (pathJoin m.base stub) = HashOutcome.returned m.hash m.err) := by
  intro roots
  induction roots with
  | nil =>
    intro msgs h m
    simp only [dispatch, Option.some.injEq] at h
    subst h
    simp
  | cons b bs ih =>
    intro msgs h m
    unfold dispatch at h
    cases hh : hash sum256 fs (pathJoin b stub) with
    | returned d e =>
      rw [hh] at h
      cases hd : dispatch sum256 fs stub bs with
      | none => rw [hd] at h; simp at h
      | some ms =>
        rw [hd] at h
        simp only [Option.some.injEq] at h
        subst h
        rw [List.mem_cons, ih ms hd m, List.mem_cons]
        constructor
        · rintro (rfl | ⟨hb, hm⟩)
          · exact ⟨Or.inl rfl, hh⟩
          · exact ⟨Or.inr hb, hm⟩
        · rintro ⟨hb | hb, hm⟩
          · left
            obtain ⟨mb, mh, me⟩ := m
            simp only at hb hm
            subst hb
            rw [hh] at hm
            cases hm
            rfl
          · exact Or.inr ⟨hb, hm⟩
    | panicked => rw [hh] at h; simp at h
    | fuelExhausted => rw [hh] at h; simp at h

theorem dispatch_bases (sum256 : List UInt8 → List UInt8) (fs : FS) (stub : GoString) :
    ∀ (roots : List GoString) (msgs : List Message),
      dispatch sum256 fs stub roots = some msgs → msgs.map (fun m => m.base) = roots := by
  intro roots
  induction roots with
  | nil =>
    intro msgs h
    simp only [dispatch, Option.some.injEq] at h
    subst h
    rfl
  | cons b bs ih =>
    intro msgs h
    unfold dispatch at h
    cases hh : hash sum256 fs (pathJoin b stub) with
    | returned d e =>
      rw [hh] at h
      cases hd : dispatch sum256 fs stub bs with
      | none => rw [hd] at h; simp at h
      | some ms =>
        rw [hd] at h
        simp only [Option.some.injEq] at h
        subst h
        rw [List.map_cons, ih ms hd]
    | panicked => rw [hh] at h; simp at h
    | fuelExhausted => rw [hh] at h; simp at h

theorem collect_warnings (stub : GoString) (err : Option GoError) :
    ∀ (msgs : List Message) (ws : List Warning) (hashes : List (GoString × List GoString)),
      (collect stub err msgs ws hashes).1 =
        ws ++ (msgs.filter fun m => decide (m.err ≠ none)).map (warningOf stub err) := by
  intro msgs
  induction msgs with
  | nil => intro ws hashes; simp [collect]
  | cons m ms ih =>
    intro ws hashes
    unfold collect
    by_cases hm : m.err ≠ none
    · rw [if_pos hm, ih, List.filter_cons_of_pos (by simpa using hm), List.map_cons,
        List.append_assoc]
      rfl
    · rw [if_neg hm, ih, List.filter_cons_of_neg (by simpa using hm)]

theorem collect_inGroup (stub : GoString) (err : Option GoError) :
    ∀ (msgs : List Message) (ws : List Warning) (hashes : List (GoString × List GoString))
      (h b : GoString),
      InGroup (collect stub err msgs ws hashes).2 h b ↔
        InGroup hashes h b ∨ ∃ m ∈ msgs, m.err = none ∧ m.hash = h ∧ m.base = b := by
  intro msgs
  induction msgs with
  | nil => intro ws hashes h b; simp [collect]
  | cons m ms ih =>
    intro ws hashes h b
    unfold collect
    by_cases hm : m.err ≠ none
    · rw [if_pos hm, ih]
      constructor
      · rintro (hg | ⟨m', hm', hrest⟩)
        · exact Or.inl hg
        · exact Or.inr ⟨m', List.mem_cons_of_mem _ hm', hrest⟩
      · rintro (hg | ⟨m', hm', hrest⟩)
        · exact Or.inl hg
        · rcases List.mem_cons.mp hm' with rfl | hm'
          · exact absurd hrest.1 hm
          · exact Or.inr ⟨m', hm', hrest⟩
    · rw [if_neg hm, ih, inGroup_groupAdd]
      have hm0 : m.err = none := by simpa using hm
      constructor
      · rintro ((hg | ⟨rfl, rfl⟩) | ⟨m', hm', hrest⟩)
        · exact Or.inl hg
        · exact Or.inr ⟨m, List.mem_cons_self _ _, hm0, rfl, rfl⟩
        · exact Or.inr ⟨m', List.mem_cons_of_mem _ hm', hrest⟩
      · rintro (hg | ⟨m', hm', hrest⟩)
        · exact Or.inl (Or.inl hg)
        · rcases List.mem_cons.mp hm' with rfl | hm'
          · exact Or.inl (Or.inr ⟨hrest.2.1.symm, hrest.2.2.symm⟩)
          · exact Or.inr ⟨m', hm', hrest⟩

theorem collect_nodup_keys (stub : GoString) (err : Option GoError) :
    ∀ (msgs : List Message) (ws : List Warning) (hashes : List (GoString × List GoString)),
      (hashes.map Prod.fst).Nodup →
      ((collect stub err msgs ws hashes).2.map Prod.fst).Nodup := by
  intro msgs
  induction msgs with
  | nil => intro ws hashes hn; simpa [collect] using hn
  | cons m ms ih =>
    intro ws hashes hn
    unfold collect
    by_cases hm : m.err ≠ none
    · rw [if_pos hm]
      exact ih _ _ hn
    · rw [if_neg hm]
      exact ih _ _ (nodup_keys_groupAdd _ _ _ hn)

theorem collect_groupsInhabited (stub : GoString) (err : Option GoError) :
    ∀ (msgs : List Message) (ws : List Warning) (hashes : List (GoString × List GoString)),
      GroupsInhabited hashes → GroupsInhabited (collect stub err msgs ws hashes).2 := by
  intro msgs
  induction msgs with
  | nil => intro ws hashes hn; simpa [collect] using hn
  | cons m ms ih =>
    intro ws hashes hn
    unfold collect
    by_cases hm : m.err ≠ none
    · rw [if_pos hm]
      exact ih _ _ hn
    · rw [if_neg hm]
      exact ih _ _ (groupsInhabited_groupAdd _ _ _ hn)

theorem one_lt_length_iff_of_nodup (l : List GoString) (hn : l.Nodup) :
    1 < l.length ↔ ∃ a ∈ l, ∃ b ∈ l, a ≠ b := by
  match l, hn with
  | [], _ => simp
  | [a], _ =>
    simp only [List.length_singleton, Nat.lt_irrefl, List.mem_singleton, false_iff]
    rintro ⟨x, rfl, y, rfl, hxy⟩
    exact hxy rfl
  | a :: b :: t, hn =>
    simp only [List.length_cons, true_iff]
    constructor
    · intro _
      refine ⟨a, List.mem_cons_self _ _, b, List.mem_cons_of_mem _ (List.mem_cons_self _ _), ?_⟩
      intro hab
      rw [List.nodup_cons] at hn
      exact hn.1 (hab ▸ List.mem_cons_self _ _)
    · intro _
      omega

theorem processPath_some (sum256 : List UInt8 → List UInt8) (fs : FS) (sched : Scheduler)
    (roots : List GoString) (stub : GoString) (err : Option GoError) (report : PathReport)
    (h : processPath sum256 fs sched roots stub err = some report) :
    ∃ msgs, dispatch sum256 fs stub roots = some msgs ∧
      report.stub = stub ∧
      report.hashed = roots.map (fun b => pathJoin b stub) ∧
      report.warnings = (collect stub err (sched.arrive stub msgs) [] []).1 ∧
      report.hashes = (collect stub err (sched.arrive stub msgs) [] []).2 ∧
      report.mismatch = decide (1 < report.hashes.length) := by
  unfold processPath at h
  cases hd : dispatch sum256 fs stub roots with
  | none => rw [hd] at h; simp at h
  | some msgs =>
    rw [hd] at h
    simp only [Option.some.injEq] at h
    subst h
    exact ⟨msgs, rfl, rfl, rfl, rfl, rfl, rfl⟩

theorem processPath_inGroup (sum256 : List UInt8 → List UInt8) (fs : FS) (sched : Scheduler)
    (roots : List GoString) (stub : GoString) (err : Option GoError) (report : PathReport)
    (h : processPath sum256 fs sched roots stub err = some report) (d b : GoString) :
    InGroup report.hashes d b ↔ b ∈ roots ∧ Fingerprints sum256 fs stub b d := by
  obtain ⟨msgs, hd, _, _, _, hh, _⟩ := processPath_some sum256 fs sched roots stub err report h
  rw [hh, collect_inGroup]
  unfold Fingerprints
  constructor
  · rintro (⟨g, hg, _⟩ | ⟨m, hm, he, rfl, rfl⟩)
    · simp at hg
    · have := (dispatch_mem sum256 fs stub roots msgs hd m).mp
        ((sched.perm stub msgs).mem_iff.mp hm)
      rw [he] at this
      exact this
  · rintro ⟨hb, hf⟩
    right
    refine ⟨{ base := b, hash := d, err := none }, ?_, rfl, rfl, rfl⟩
    exact (sched.perm stub msgs).mem_iff.mpr
      ((dispatch_mem sum256 fs stub roots msgs hd _).mpr ⟨hb, hf⟩)

theorem processPath_keys (sum256 : List UInt8 → List UInt8) (fs : FS) (sched : Scheduler)
    (roots : List GoString) (stub : GoString) (err : Option GoError) (report : PathReport)
    (h : processPath sum256 fs sched roots stub err = some report) :
    (report.hashes.map Prod.fst).Nodup ∧
      ∀ d, d ∈ report.hashes.map Prod.fst ↔ ∃ b, InGroup report.hashes d b := by
  obtain ⟨msgs, _, _, _, _, hh, _⟩ := processPath_some sum256 fs sched roots stub err report h
  have hn : (report.hashes.map Prod.fst).Nodup := by
    rw [hh]
    exact collect_nodup_keys stub err _ [] [] (by simp)
  have hi : GroupsInhabited report.hashes := by
    rw [hh]
    exact collect_groupsInhabited stub err _ [] [] (fun _ _ hg => by simp at hg)
  refine ⟨hn, ?_⟩
  intro d
  constructor
  · intro hd
    obtain ⟨⟨k, g⟩, hkg, rfl⟩ := List.mem_map.mp hd
    obtain ⟨b, hb⟩ := List.exists_mem_of_ne_nil g (hi k g hkg)
    exact ⟨b, g, hkg, hb⟩
  · rintro ⟨b, g, hg, _⟩
    exact List.mem_map.mpr ⟨(d, g), hg, rfl⟩

/-- C1.  For every root list and every relative path the comparator processes, the
`Mismatch` line is logged if and only if the grouping has more than one key, which
is the case if and only if two roots were fingerprinted successfully with
different values.  Hence there is no mismatch with exactly one root, nor when at
most one root is fingerprinted successfully. -/
theorem mismatch_iff (sum256 : List UInt8 → List UInt8) (fs : FS) (sched : Scheduler)
    (roots : List GoString) (stub : GoString) (err : Option GoError) (report : PathReport)
    (h : processPath sum256 fs sched roots stub err = some report) :
    report.stub = stub ∧
    (report.mismatch = true ↔ 1 < report.hashes.length) ∧
    (report.mismatch = true ↔
      ∃ b₁ ∈ roots, ∃ b₂ ∈ roots, ∃ d₁ d₂, d₁ ≠ d₂ ∧
        Fingerprints sum256 fs stub b₁ d₁ ∧ Fingerprints sum256 fs stub b₂ d₂) ∧
    (roots.length = 1 → report.mismatch = false) ∧
    ((∀ b₁ ∈ roots, ∀ b₂ ∈ roots, ∀ d₁ d₂, Fingerprints sum256 fs stub b₁ d₁ →
        Fingerprints sum256 fs stub b₂ d₂ → b₁ = b₂) → report.mismatch = false) := by
  obtain ⟨msgs, _, hstub, _, _, _, hmis⟩ :=
    processPath_some sum256 fs sched roots stub err report h
  obtain ⟨hn, hkeys⟩ := processPath_keys sum256 fs sched roots stub err report h
  have hlen : report.mismatch = true ↔ 1 < report.hashes.length := by
    rw [hmis]
    simp
  have hiff : report.mismatch = true ↔
      ∃ b₁ ∈ roots, ∃ b₂ ∈ roots, ∃ d₁ d₂, d₁ ≠ d₂ ∧
        Fingerprints sum256 fs stub b₁ d₁ ∧ Fingerprints sum256 fs stub b₂ d₂ := by
    rw [hlen, ← List.length_map report.hashes Prod.fst, one_lt_length_iff_of_nodup _ hn]
    constructor
    · rintro ⟨d₁, h₁, d₂, h₂, hne⟩
      obtain ⟨b₁, hb₁⟩ := (hkeys d₁).mp h₁
      obtain ⟨b₂, hb₂⟩ := (hkeys d₂).mp h₂
      have e₁ := (processPath_inGroup sum256 fs sched roots stub err report h d₁ b₁).mp hb₁
      have e₂ := (processPath_inGroup sum256 fs sched roots stub err report h d₂ b₂).mp hb₂
      exact ⟨b₁, e₁.1, b₂, e₂.1, d₁, d₂, hne, e₁.2, e₂.2⟩
    · rintro ⟨b₁, hb₁, b₂, hb₂, d₁, d₂, hne, hf₁, hf₂⟩
      refine ⟨d₁, (hkeys d₁).mpr ⟨b₁, ?_⟩, d₂, (hkeys d₂).mpr ⟨b₂, ?_⟩, hne⟩
      · exact (processPath_inGroup sum256 fs sched roots stub err report h d₁ b₁).mpr ⟨hb₁, hf₁⟩
      · exact (processPath_inGroup sum256 fs sched roots stub err report h d₂ b₂).mpr ⟨hb₂, hf₂⟩
  have hsame : (∀ b₁ ∈ roots, ∀ b₂ ∈ roots, ∀ d₁ d₂, Fingerprints sum256 fs stub b₁ d₁ →
      Fingerprints sum256 fs stub b₂ d₂ → b₁ = b₂) → report.mismatch = false := by
    intro hall
    cases hm : report.mismatch with
    | false => rfl
    | true =>
      obtain ⟨b₁, hb₁, b₂, hb₂, d₁, d₂, hne, hf₁, hf₂⟩ := hiff.mp hm
      have hb := hall b₁ hb₁ b₂ hb₂ d₁ d₂ hf₁ hf₂
      subst hb
      unfold Fingerprints at hf₁ hf₂
      rw [hf₁] at hf₂
      cases hf₂
      exact absurd rfl hne
  refine ⟨hstub, hlen, hiff, ?_, hsame⟩
  intro hone
  apply hsame
  intro b₁ hb₁ b₂ hb₂ _ _ _ _
  match roots, hone with
  | [r], _ =>
    rw [List.mem_singleton] at hb₁ hb₂
    rw [hb₁, hb₂]

theorem processPath_fsDiffer :
    processPath toySum fsDiffer inOrder [utf8 "a", utf8 "b"] (utf8 "/sub/file.txt") none = some reportDiffer := by
  decide

theorem processPath_fsAgree :
    processPath toySum fsAgree reversed [utf8 "a", utf8 "b", utf8 "c"] (utf8 "/sub/file.txt") none =
      some reportAgree := by
  decide

/-- Witness of `mismatch_iff`: the roots `a` and `b` of `fsDiffer`. -/
theorem mismatch_iff_witness :
    reportDiffer.mismatch = true ↔
      ∃ b₁ ∈ [utf8 "a", utf8 "b"], ∃ b₂ ∈ [utf8 "a", utf8 "b"], ∃ d₁ d₂, d₁ ≠ d₂ ∧
        Fingerprints toySum fsDiffer (utf8 "/sub/file.txt") b₁ d₁ ∧
        Fingerprints toySum fsDiffer (utf8 "/sub/file.txt") b₂ d₂ :=
  (mismatch_iff toySum fsDiffer inOrder [utf8 "a", utf8 "b"] (utf8 "/sub/file.txt") none reportDiffer
    processPath_fsDiffer).2.2.1

/-- C2.  For every root list and every relative path the comparator processes, one
fingerprinter call is made for every root of the full list; the grouping maps the
fingerprint `d` to exactly the roots `b` of the full list whose file was
fingerprinted successfully with value `d`; a fingerprint is one key; a root is in
the group of one fingerprint at most, and in none when its fingerprinting fails;
and the grouping, as sets of roots, is the same for every arrival order. -/
theorem grouping_spec (sum256 : List UInt8 → List UInt8) (fs : FS) (sched : Scheduler)
    (roots : List GoString) (stub : GoString) (err : Option GoError) (report : PathReport)
    (h : processPath sum256 fs sched roots stub err = some report) :
    report.hashed = roots.map (fun b => pathJoin b stub) ∧
    (∀ d b, InGroup report.hashes d b ↔ b ∈ roots ∧ Fingerprints sum256 fs stub b d) ∧
    (report.hashes.map Prod.fst).Nodup ∧
    (∀ b d₁ d₂, InGroup report.hashes d₁ b → InGroup report.hashes d₂ b → d₁ = d₂) ∧
    (∀ b ∈ roots, (∀ d, ¬ Fingerprints sum256 fs stub b d) →
      ∀ d, ¬ InGroup report.hashes d b) ∧
    (∀ sched' : Scheduler, ∃ report',
      processPath sum256 fs sched' roots stub err = some report' ∧
      ∀ d b, InGroup report'.hashes d b ↔ InGroup report.hashes d b) := by
  obtain ⟨msgs, hd, _, hhashed, _, _, _⟩ :=
    processPath_some sum256 fs sched roots stub err report h
  have hin := processPath_inGroup sum256 fs sched roots stub err report h
  refine ⟨hhashed, hin, (processPath_keys sum256 fs sched roots stub err report h).1, ?_, ?_, ?_⟩
  · intro b d₁ d₂ h₁ h₂
    have e₁ := ((hin d₁ b).mp h₁).2
    have e₂ := ((hin d₂ b).mp h₂).2
    unfold Fingerprints at e₁ e₂
    rw [e₁] at e₂
    cases e₂
    rfl
  · intro b _ hfail d hg
    exact hfail d ((hin d b).mp hg).2
  · intro sched'
    have hsome : ∃ report', processPath sum256 fs sched' roots stub err = some report' := by
      unfold processPath
      rw [hd]
      exact ⟨_, rfl⟩
    obtain ⟨report', h'⟩ := hsome
    refine ⟨report', h', ?_⟩
    intro d b
    rw [processPath_inGroup sum256 fs sched' roots stub err report' h' d b, hin d b]

/-- Witness of `grouping_spec`: the roots `a`, `b`, `c` of `fsAgree`, of which `c`
lacks the file; the group of the one fingerprint is `a` and `b`. -/
theorem grouping_spec_witness :
    reportAgree.hashed = [utf8 "a", utf8 "b", utf8 "c"].map (fun b => pathJoin b (utf8 "/sub/file.txt")) ∧
      (InGroup reportAgree.hashes (utf8 "010203") (utf8 "a") ↔
        (utf8 "a") ∈ [utf8 "a", utf8 "b", utf8 "c"] ∧ Fingerprints toySum fsAgree (utf8 "/sub/file.txt") (utf8 "a") (utf8 "010203")) :=
  ⟨(grouping_spec toySum fsAgree reversed [utf8 "a", utf8 "b", utf8 "c"] (utf8 "/sub/file.txt") none reportAgree
      processPath_fsAgree).1,
    (grouping_spec toySum fsAgree reversed [utf8 "a", utf8 "b", utf8 "c"] (utf8 "/sub/file.txt") none reportAgree
      processPath_fsAgree).2.1 (utf8 "010203") (utf8 "a")⟩

/-- The warnings of a path are, up to their order, one for every root whose message
carries an error; each names the joined path of that root and, as its cause, the
variable `err` of the walk callback. -/
theorem warnings_spec (sum256 : List UInt8 → List UInt8) (fs : FS) (sched : Scheduler)
    (roots : List GoString) (stub : GoString) (err : Option GoError) (report : PathReport)
    (h : processPath sum256 fs sched roots stub err = some report) :
    ∃ msgs, dispatch sum256 fs stub roots = some msgs ∧
      msgs.map (fun m => m.base) = roots ∧
      report.warnings.Perm
        ((msgs.filter fun m => decide (m.err ≠ none)).map (warningOf stub err)) := by
  obtain ⟨msgs, hd, _, _, hw, _, _⟩ := processPath_some sum256 fs sched roots stub err report h
  refine ⟨msgs, hd, dispatch_bases sum256 fs stub roots msgs hd, ?_⟩
  rw [hw, collect_warnings, List.nil_append]
  exact ((sched.perm stub msgs).filter _).map _

/-- C5 (the code at the failing input).  Roots `a`, `b`, `c`, where `c` lacks
`sub/file.txt`: the fingerprinter returns for `c` the error
`cannot open c/sub/file.txt: no such file or directory`, and the one warning that
is logged names `c/sub/file.txt` but carries as its cause the `err` argument of the
walk callback, which is `nil`, not the error of the fingerprinter. -/
theorem warning_cause_is_walk_error :
    hash toySum fsAgree (pathJoin (utf8 "c") (utf8 "/sub/file.txt")) =
        HashOutcome.returned []
          (some (GoError.cannotOpen (utf8 "c/sub/file.txt") (GoError.os "no such file or directory"))) ∧
      walkFn toySum fsAgree reversed [utf8 "a", utf8 "b", utf8 "c"] (utf8 "a") { checked := [], log := [] }
          { path := utf8 "a/sub/file.txt", info := some { kind := FileKind.regular }, err := none } =
        some { checked := [utf8 "/sub/file.txt"], log := [reportAgree] } ∧
      reportAgree.warnings = [{ file := utf8 "c/sub/file.txt", cause := none }] := by
  decide

theorem dispatch_total (sum256 : List UInt8 → List UInt8) (fs : FS) (stub : GoString) :
    ∀ roots : List GoString,
      (∀ b ∈ roots, ∃ d c, hash sum256 fs (pathJoin b stub) = HashOutcome.returned d c) →
      ∃ msgs, dispatch sum256 fs stub roots = some msgs := by
  intro roots
  induction roots with
  | nil => intro _; exact ⟨[], rfl⟩
  | cons b bs ih =>
    intro h
    obtain ⟨d, c, hb⟩ := h b (List.mem_cons_self _ _)
    obtain ⟨ms, hms⟩ := ih (fun x hx => h x (List.mem_cons_of_mem _ hx))
    refine ⟨{ base := b, hash := d, err := c } :: ms, ?_⟩
    unfold dispatch
    rw [hb]
    simp only [hms]

theorem processPath_total (sum256 : List UInt8 → List UInt8) (fs : FS) (sched : Scheduler)
    (roots : List GoString) (stub : GoString) (err : Option GoError)
    (h : ∀ b ∈ roots, ∃ d c, hash sum256 fs (pathJoin b stub) = HashOutcome.returned d c) :
    ∃ report, processPath sum256 fs sched roots stub err = some report := by
  obtain ⟨msgs, hd⟩ := dispatch_total sum256 fs stub roots h
  unfold processPath
  rw [hd]
  exact ⟨_, rfl⟩

/-- Every root of the list is accounted for in the report of a path: it is in the
group of its fingerprint, or its fingerprinting returned an error and a warning
names its file. -/
theorem processPath_every_root (sum256 : List UInt8 → List UInt8) (fs : FS)
    (sched : Scheduler) (roots : List GoString) (stub : GoString) (err : Option GoError)
    (report : PathReport)
    (h : processPath sum256 fs sched roots stub err = some report) :
    ∀ b ∈ roots,
      (∃ d, Fingerprints sum256 fs stub b d ∧ InGroup report.hashes d b) ∨
      (∃ d c, hash sum256 fs (pathJoin b stub) = HashOutcome.returned d (some c) ∧
        ({ file := pathJoin b stub, cause := err } : Warning) ∈ report.warnings) := by
  intro b hb
  obtain ⟨msgs, hd, _, _, hw, _, _⟩ := processPath_some sum256 fs sched roots stub err report h
  have hbases := dispatch_bases sum256 fs stub roots msgs hd
  rw [← hbases] at hb
  obtain ⟨m, hm, rfl⟩ := List.mem_map.mp hb
  have hhash := ((dispatch_mem sum256 fs stub roots msgs hd m).mp hm).2
  cases he : m.err with
  | none =>
    left
    rw [he] at hhash
    refine ⟨m.hash, hhash, ?_⟩
    exact (processPath_inGroup sum256 fs sched roots stub err report h m.hash m.base).mpr
      ⟨((dispatch_mem sum256 fs stub roots msgs hd m).mp hm).1, hhash⟩
  | some c =>
    right
    rw [he] at hhash
    refine ⟨m.hash, c, hhash, ?_⟩
    rw [hw, collect_warnings, List.nil_append]
    refine List.mem_map.mpr ⟨m, List.mem_filter.mpr ⟨?_, ?_⟩, rfl⟩
    · exact (sched.perm stub msgs).mem_iff.mpr hm
    · simp [he]

/-- C6 (amended).  Only directories are skipped.  For an entry delivered with its
metadata: when it is a directory, the callback leaves the state as it is (no
fingerprinting, no warning, no mismatch, no path marked).  When it is anything
else (a regular file, a symbolic link, a special file) it is not filtered:
whenever the callback returns for it, the strip of the root was in bounds and gave
a relative path; if that path was marked before, the state is unchanged; if not,
the path is now marked and one report was added for it, in which every root of the
full list is accounted for (it is in the group of its fingerprint, or its
fingerprinting returned an error and a warning names its file).  And the callback
does return whenever the strip is in bounds and the path was marked before or
every fingerprinter call returns. -/
theorem walkFn_skips_directories_only (sum256 : List UInt8 → List UInt8) (fs : FS)
    (sched : Scheduler) (roots : List GoString) (dir : GoString) (st : RunState)
    (e : WalkEntry) (info : FileInfo) (hinfo : e.info = some info) :
    (info.kind = FileKind.directory →
      walkFn sum256 fs sched roots dir st e = some st) ∧
    (info.kind ≠ FileKind.directory →
      (∀ st', walkFn sum256 fs sched roots dir st e = some st' →
        ∃ stub, stubOf dir e.path = some stub ∧
          ((stub ∈ st.checked ∧ st' = st) ∨
            (stub ∉ st.checked ∧ ∃ report,
              st' = { checked := stub :: st.checked, log := st.log ++ [report] } ∧
              report.stub = stub ∧
              ∀ b ∈ roots,
                (∃ d, Fingerprints sum256 fs stub b d ∧ InGroup report.hashes d b) ∨
                (∃ d c, hash sum256 fs (pathJoin b stub) = HashOutcome.returned d (some c) ∧
                  ({ file := pathJoin b stub, cause := e.err } : Warning) ∈
                    report.warnings)))) ∧
      (∀ stub, stubOf dir e.path = some stub →
        (stub ∈ st.checked ∨
          ∀ b ∈ roots, ∃ d c,
            hash sum256 fs (pathJoin b stub) = HashOutcome.returned d c) →
        ∃ st', walkFn sum256 fs sched roots dir st e = some st')) := by
  constructor
  · intro hk
    unfold walkFn
    rw [hinfo]
    simp [FileInfo.isDir, hk]
  · intro hk
    have hd : ¬ info.isDir = true := by simp [FileInfo.isDir, hk]
    constructor
    · intro st' h
      unfold walkFn at h
      rw [hinfo] at h
      simp only at h
      rw [if_neg hd] at h
      cases hs : stubOf dir e.path with
      | none => rw [hs] at h; simp at h
      | some stub =>
        rw [hs] at h
        simp only at h
        refine ⟨stub, rfl, ?_⟩
        by_cases hc : stub ∈ st.checked
        · rw [if_pos hc] at h
          simp only [Option.some.injEq] at h
          exact Or.inl ⟨hc, h.symm⟩
        · rw [if_neg hc] at h
          cases hp : processPath sum256 fs sched roots stub e.err with
          | none => rw [hp] at h; simp at h
          | some report =>
            rw [hp] at h
            simp only [Option.some.injEq] at h
            obtain ⟨_, _, hstub, _⟩ :=
              processPath_some sum256 fs sched roots stub e.err report hp
            exact Or.inr ⟨hc, report, h.symm, hstub,
              processPath_every_root sum256 fs sched roots stub e.err report hp⟩
    · intro stub hs hret
      unfold walkFn
      rw [hinfo]
      simp only
      rw [if_neg hd, hs]
      simp only
      by_cases hc : stub ∈ st.checked
      · rw [if_pos hc]
        exact ⟨st, rfl⟩
      · rw [if_neg hc]
        have hall := hret.resolve_left hc
        obtain ⟨report, hp⟩ := processPath_total sum256 fs sched roots stub e.err hall
        rw [hp]
        exact ⟨_, rfl⟩

/-- Witness of `walkFn_skips_directories_only`: the directory `a/sub` is skipped, and
the callback returns for a symbolic link `a/sub/file.txt`. -/
theorem walkFn_skips_directories_only_witness :
    walkFn toySum fsAgree inOrder [utf8 "a", utf8 "b"] (utf8 "a") { checked := [], log := [] }
        { path := utf8 "a/sub", info := some { kind := FileKind.directory }, err := none } =
      some { checked := [], log := [] } ∧
    ∃ st', walkFn toySum fsAgree inOrder [utf8 "a", utf8 "b"] (utf8 "a")
        { checked := [], log := [] }
        { path := utf8 "a/sub/file.txt", info := some { kind := FileKind.symlink },
          err := none } = some st' :=
  ⟨(walkFn_skips_directories_only toySum fsAgree inOrder [utf8 "a", utf8 "b"] (utf8 "a")
      { checked := [], log := [] }
      { path := utf8 "a/sub", info := some { kind := FileKind.directory }, err := none }
      { kind := FileKind.directory } rfl).1 rfl,
    ((walkFn_skips_directories_only toySum fsAgree inOrder [utf8 "a", utf8 "b"] (utf8 "a")
      { checked := [], log := [] }
      { path := utf8 "a/sub/file.txt", info := some { kind := FileKind.symlink }, err := none }
      { kind := FileKind.symlink } rfl).2 (by decide)).2 (utf8 "/sub/file.txt") (by decide)
      (Or.inr (by
        intro b hb
        rcases List.mem_cons.mp hb with rfl | hb
        · exact ⟨_, _, rfl⟩
        · rcases List.mem_cons.mp hb with rfl | hb
          · exact ⟨_, _, rfl⟩
          · cases hb))⟩

/-- C6 (counterexample).  A symbolic link `a/sub/file.txt` delivered by the
traversal is not skipped: both roots are fingerprinted for it and its relative
path is marked as processed.  The same holds for a special file. -/
theorem walkFn_skips_directories_only_counterexample :
    (walkFn toySum fsDiffer inOrder [utf8 "a", utf8 "b"] (utf8 "a") { checked := [], log := [] }
        { path := utf8 "a/sub/file.txt", info := some { kind := FileKind.symlink }, err := none }
      = some { checked := [utf8 "/sub/file.txt"], log := [reportDiffer] }) ∧
    (walkFn toySum fsDiffer inOrder [utf8 "a", utf8 "b"] (utf8 "a") { checked := [], log := [] }
        { path := utf8 "a/sub/file.txt", info := some { kind := FileKind.special }, err := none }
      = some { checked := [utf8 "/sub/file.txt"], log := [reportDiffer] }) ∧
    reportDiffer.hashed = [utf8 "a/sub/file.txt", utf8 "b/sub/file.txt"] := by
  decide

theorem newStubs_eq_filter :
    ∀ (l seen : List GoString),
      newStubs seen l = (firstOccurrences l).filter (fun y => decide (y ∉ seen)) := by
  intro l
  induction l with
  | nil => intro seen; rfl
  | cons x xs ih =>
    intro seen
    unfold newStubs firstOccurrences
    by_cases hx : x ∈ seen
    · rw [if_pos hx, ih, List.filter_cons_of_neg (by simpa using hx), List.filter_filter]
      apply List.filter_congr
      intro y _
      by_cases hy : y ∈ seen
      · simp [hy]
      · have : y ≠ x := fun e => hy (e ▸ hx)
        simp [hy, this]
    · rw [if_neg hx, ih, List.filter_cons_of_pos (by simpa using hx), List.filter_filter]
      congr 1
      apply List.filter_congr
      intro y _
      by_cases hy : y = x
      · simp [hy]
      · simp [hy, List.mem_cons]

theorem newStubs_nil (l : List GoString) : newStubs [] l = firstOccurrences l := by
  rw [newStubs_eq_filter]
  simp

theorem newStubs_cons_seen (seen : List GoString) (x : GoString) (xs : List GoString)
    (hx : x ∈ seen) : newStubs seen (x :: xs) = newStubs seen xs := by
  rw [newStubs, if_pos hx]

theorem newStubs_cons_new (seen : List GoString) (x : GoString) (xs : List GoString)
    (hx : x ∉ seen) : newStubs seen (x :: xs) = x :: newStubs (x :: seen) xs := by
  rw [newStubs, if_neg hx]

theorem newStubs_append :
    ∀ (l₁ l₂ seen : List GoString),
      newStubs seen (l₁ ++ l₂) =
        newStubs seen l₁ ++ newStubs ((newStubs seen l₁).reverse ++ seen) l₂ := by
  intro l₁
  induction l₁ with
  | nil => intro l₂ seen; simp [newStubs]
  | cons x xs ih =>
    intro l₂ seen
    rw [List.cons_append]
    by_cases hx : x ∈ seen
    · rw [newStubs_cons_seen seen x _ hx, newStubs_cons_seen seen x _ hx]
      exact ih l₂ seen
    · rw [newStubs_cons_new seen x _ hx, newStubs_cons_new seen x _ hx, ih l₂ (x :: seen),
        List.cons_append, List.reverse_cons, List.append_assoc]
      rfl

theorem mem_firstOccurrences (l : List GoString) (p : GoString) :
    p ∈ firstOccurrences l ↔ p ∈ l := by
  induction l with
  | nil => simp [firstOccurrences]
  | cons x xs ih =>
    unfold firstOccurrences
    rw [List.mem_cons, List.mem_cons, List.mem_filter, ih]
    by_cases hp : p = x
    · simp [hp]
    · simp [hp]

theorem nodup_firstOccurrences (l : List GoString) : (firstOccurrences l).Nodup := by
  induction l with
  | nil => simp [firstOccurrences]
  | cons x xs ih =>
    unfold firstOccurrences
    rw [List.nodup_cons]
    refine ⟨?_, ih.filter _⟩
    intro hx
    have := (List.mem_filter.mp hx).2
    simp at this

theorem walkFn_run (sum256 : List UInt8 → List UInt8) (fs : FS) (sched : Scheduler)
    (roots : List GoString) (dir : GoString) (st st' : RunState) (e : WalkEntry)
    (h : walkFn sum256 fs sched roots dir st e = some st')
    (hinv : RunInv sum256 fs sched roots st) :
    RunInv sum256 fs sched roots st' ∧
      (st'.log.map fun r => r.stub) =
        (st.log.map fun r => r.stub) ++ newStubs st.checked (entryStub dir e).toList := by
  unfold walkFn at h
  unfold entryStub
  cases hinfo : e.info with
  | none => rw [hinfo] at h; simp at h
  | some info =>
    rw [hinfo] at h
    simp only at h ⊢
    by_cases hd : info.isDir = true
    · rw [if_pos hd] at h
      rw [if_pos hd]
      simp only [Option.some.injEq] at h
      subst h
      exact ⟨hinv, by simp [newStubs]⟩
    · rw [if_neg hd] at h
      rw [if_neg hd]
      cases hs : stubOf dir e.path with
      | none => rw [hs] at h; simp at h
      | some stub =>
        rw [hs] at h
        simp only at h
        by_cases hc : stub ∈ st.checked
        · rw [if_pos hc] at h
          simp only [Option.some.injEq] at h
          subst h
          refine ⟨hinv, ?_⟩
          rw [Option.toList_some, newStubs_cons_seen _ _ _ hc]
          simp [newStubs]
        · rw [if_neg hc] at h
          cases hp : processPath sum256 fs sched roots stub e.err with
          | none => rw [hp] at h; simp at h
          | some report =>
            rw [hp] at h
            simp only [Option.some.injEq] at h
            subst h
            obtain ⟨_, _, hstub, _⟩ :=
              processPath_some sum256 fs sched roots stub e.err report hp
            refine ⟨⟨?_, ?_⟩, ?_⟩
            · simp only [List.map_append, List.map_cons, List.map_nil, List.reverse_append,
                List.reverse_cons, List.reverse_nil, List.nil_append, List.singleton_append,
                hstub]
              rw [hinv.1]
            · intro r hr
              rcases List.mem_append.mp hr with hr | hr
              · exact hinv.2 r hr
              · rw [List.mem_singleton] at hr
                subst hr
                exact ⟨e.err, by rw [hstub]; exact hp⟩
            · rw [Option.toList_some, newStubs_cons_new _ _ _ hc]
              simp [newStubs, hstub]

theorem walkEntries_run (sum256 : List UInt8 → List UInt8) (fs : FS) (sched : Scheduler)
    (roots : List GoString) (dir : GoString) :
    ∀ (es : List WalkEntry) (st st' : RunState),
      walkEntries sum256 fs sched roots dir st es = some st' →
      RunInv sum256 fs sched roots st →
      RunInv sum256 fs sched roots st' ∧
        (st'.log.map fun r => r.stub) =
          (st.log.map fun r => r.stub) ++
            newStubs st.checked (es.filterMap (entryStub dir)) := by
  intro es
  induction es with
  | nil =>
    intro st st' h hinv
    simp only [walkEntries, Option.some.injEq] at h
    subst h
    exact ⟨hinv, by simp [newStubs]⟩
  | cons e es ih =>
    intro st st' h hinv
    unfold walkEntries at h
    cases h1 : walkFn sum256 fs sched roots dir st e with
    | none => rw [h1] at h; simp at h
    | some st1 =>
      rw [h1] at h
      simp only at h
      obtain ⟨hinv1, hlog1⟩ := walkFn_run sum256 fs sched roots dir st st1 e h1 hinv
      obtain ⟨hinv', hlog'⟩ := ih st1 st' h hinv1
      refine ⟨hinv', ?_⟩
      have hsplit : (e :: es).filterMap (entryStub dir) =
          (entryStub dir e).toList ++ es.filterMap (entryStub dir) := by
        rw [List.filterMap_cons]
        cases entryStub dir e <;> rfl
      rw [hlog', hlog1, hsplit, newStubs_append, List.append_assoc, hinv1.1, hlog1,
        List.reverse_append, hinv.1]

theorem walkRoots_run (sum256 : List UInt8 → List UInt8) (fs : FS) (sched : Scheduler)
    (walk : GoString → List WalkEntry) (roots : List GoString) :
    ∀ (dirs : List GoString) (st st' : RunState),
      walkRoots sum256 fs sched walk roots st dirs = some st' →
      RunInv sum256 fs sched roots st →
      RunInv sum256 fs sched roots st' ∧
        (st'.log.map fun r => r.stub) =
          (st.log.map fun r => r.stub) ++ newStubs st.checked (discovered walk dirs) := by
  intro dirs
  induction dirs with
  | nil =>
    intro st st' h hinv
    simp only [walkRoots, Option.some.injEq] at h
    subst h
    exact ⟨hinv, by simp [newStubs, discovered]⟩
  | cons dir dirs ih =>
    intro st st' h hinv
    unfold walkRoots at h
    cases h1 : walkEntries sum256 fs sched roots dir st (walk dir) with
    | none => rw [h1] at h; simp at h
    | some st1 =>
      rw [h1] at h
      simp only at h
      obtain ⟨hinv1, hlog1⟩ := walkEntries_run sum256 fs sched roots dir (walk dir) st st1 h1 hinv
      obtain ⟨hinv', hlog'⟩ := ih st1 st' h hinv1
      refine ⟨hinv', ?_⟩
      have hsplit : discovered walk (dir :: dirs) =
          (walk dir).filterMap (entryStub dir) ++ discovered walk dirs := by
        unfold discovered
        rw [List.flatMap_cons]
      rw [hlog', hlog1, hsplit, newStubs_append, List.append_assoc, hinv1.1, hlog1,
        List.reverse_append, hinv.1]

theorem reports_of_path_length (l : List PathReport) (p : GoString)
    (hn : (l.map fun r => r.stub).Nodup) (hp : p ∈ l.map fun r => r.stub) :
    (l.filter fun r => decide (r.stub = p)).length = 1 := by
  induction l with
  | nil => simp at hp
  | cons r rs ih =>
    rw [List.map_cons, List.nodup_cons] at hn
    by_cases hr : r.stub = p
    · rw [List.filter_cons_of_pos (by simpa using hr)]
      have hnil : rs.filter (fun r => decide (r.stub = p)) = [] := by
        rw [List.filter_eq_nil_iff]
        intro x hx hxp
        apply hn.1
        rw [hr]
        exact List.mem_map.mpr ⟨x, hx, by simpa using hxp⟩
      rw [hnil]
      rfl
    · rw [List.filter_cons_of_neg (by simpa using hr)]
      apply ih hn.2
      rw [List.map_cons, List.mem_cons] at hp
      rcases hp with hp | hp
      · exact absurd hp.symm hr
      · exact hp

/-- C3.  In a run over any list of roots that runs to its end, every relative path
is evaluated exactly once: the reports of the run are, in order, those of the
discovered paths at their first discovery (so no path has two reports and every
discovered path has one), every report is the evaluation of its path over all the
roots, and a discovery of a path that is already marked leaves the state as it
is, without any fingerprinting or report. -/
theorem each_path_evaluated_once (sum256 : List UInt8 → List UInt8) (fs : FS)
    (sched : Scheduler) (walk : GoString → List WalkEntry) (roots : List GoString)
    (st : RunState) (h : main sum256 fs sched walk roots = RunOutcome.finished st) :
    (st.log.map fun r => r.stub) = firstOccurrences (discovered walk roots) ∧
    (st.log.map fun r => r.stub).Nodup ∧
    (∀ p, p ∈ (st.log.map fun r => r.stub) ↔ p ∈ discovered walk roots) ∧
    (∀ p ∈ discovered walk roots,
      (st.log.filter fun r => decide (r.stub = p)).length = 1) ∧
    (∀ r ∈ st.log, ∃ err, processPath sum256 fs sched roots r.stub err = some r) ∧
    (∀ (dir : GoString) (st₀ : RunState) (e : WalkEntry) (p : GoString),
      entryStub dir e = some p → p ∈ st₀.checked →
      walkFn sum256 fs sched roots dir st₀ e = some st₀) := by
  have hrun : walkRoots sum256 fs sched walk roots { checked := [], log := [] } roots =
      some st := by
    unfold main at h
    split at h
    · cases h
    · split at h
      · cases h
      · split at h
        · cases h
        · rename_i st' hst'
          cases h
          exact hst'
  obtain ⟨hinv, hlog⟩ := walkRoots_run sum256 fs sched walk roots roots _ st hrun
    ⟨rfl, fun r hr => by simp at hr⟩
  have heq : (st.log.map fun r => r.stub) = firstOccurrences (discovered walk roots) := by
    rw [hlog]
    simp only [List.map_nil, List.nil_append]
    exact newStubs_nil _
  have hnd : (st.log.map fun r => r.stub).Nodup := by
    rw [heq]
    exact nodup_firstOccurrences _
  have hmem : ∀ p, p ∈ (st.log.map fun r => r.stub) ↔ p ∈ discovered walk roots := by
    intro p
    rw [heq]
    exact mem_firstOccurrences _ p
  refine ⟨heq, hnd, hmem, ?_, hinv.2, ?_⟩
  · intro p hp
    exact reports_of_path_length st.log p hnd ((hmem p).mpr hp)
  · intro dir st₀ e p he hp
    unfold entryStub at he
    unfold walkFn
    cases hinfo : e.info with
    | none => rw [hinfo] at he; simp at he
    | some info =>
      rw [hinfo] at he
      simp only at he ⊢
      by_cases hd : info.isDir = true
      · rw [if_pos hd]
      · rw [if_neg hd] at he
        rw [if_neg hd, he]
        simp only
        rw [if_pos hp]

theorem main_fsDiffer :
    main toySum fsDiffer inOrder walkTree [utf8 "a", utf8 "b"] =
      RunOutcome.finished { checked := [utf8 "/sub/file.txt"], log := [reportDiffer] } := by
  decide

/-- Witness of `each_path_evaluated_once`: the roots `a` and `b` of `fsDiffer` both
hold `sub/file.txt`, and the run has one report for it. -/
theorem each_path_evaluated_once_witness :
    ([reportDiffer].map fun r => r.stub) = firstOccurrences (discovered walkTree [utf8 "a", utf8 "b"]) ∧
      ([reportDiffer].map fun r => r.stub).Nodup :=
  ⟨(each_path_evaluated_once toySum fsDiffer inOrder walkTree [utf8 "a", utf8 "b"]
      { checked := [utf8 "/sub/file.txt"], log := [reportDiffer] } main_fsDiffer).1,
    (each_path_evaluated_once toySum fsDiffer inOrder walkTree [utf8 "a", utf8 "b"]
      { checked := [utf8 "/sub/file.txt"], log := [reportDiffer] } main_fsDiffer).2.1⟩

/-- C9 (the code at the failing inputs).  With the roots spelled `a/` and `b`, the
file `sub/file.txt` is walked as `a/sub/file.txt` and `b/sub/file.txt`, and the
strip yields `sub/file.txt` from the first walk and `/sub/file.txt` from the
second: the file is evaluated twice, both times over the same two files.  With
the root spelled `./a/`, the file `f` is walked as `a/f`, which is shorter than
the root: the strip is out of bounds and the run panics. -/
theorem stub_depends_on_spelling :
    stubOf (utf8 "a/") (walkedPath (utf8 "a/") [utf8 "sub", utf8 "file.txt"]) = some (utf8 "sub/file.txt") ∧
    stubOf (utf8 "b") (walkedPath (utf8 "b") [utf8 "sub", utf8 "file.txt"]) = some (utf8 "/sub/file.txt") ∧
    (∃ st, main toySum fsAgree inOrder walkTree [utf8 "a/", utf8 "b"] = RunOutcome.finished st ∧
      (st.log.map fun r => (r.stub, r.hashed)) =
        [((utf8 "sub/file.txt"), [utf8 "a/sub/file.txt", utf8 "b/sub/file.txt"]),
         ((utf8 "/sub/file.txt"), [utf8 "a/sub/file.txt", utf8 "b/sub/file.txt"])]) ∧
    walkedPath (utf8 "./a/") [utf8 "f"] = (utf8 "a/f") ∧
    stubOf (utf8 "./a/") (walkedPath (utf8 "./a/") [utf8 "f"]) = none ∧
    fsAgree.isDir (utf8 "a/") = true ∧ fsAgree.isDir (utf8 "./a/") = true ∧
    main toySum fsAgree inOrder walkFlat [utf8 "./a/"] = RunOutcome.panicked := by
  refine ⟨by decide, by decide, ⟨_, rfl, by decide⟩, by decide, by decide, by decide,
    by decide, by decide⟩

end Watches
